import Mathlib

/-!
Spell checker: trie, bounded edit distance, fuzzy search, normaliser.

A shallow embedding of `src/spellcheckerfinal.cpp`.

Modelling conventions.

* A C++ `std::string` is a `List Char`; a C++ `char` is the Lean `Char` with the same
  unsigned byte value (Lean characters above 255 have no C++ counterpart; every
  statement below holds for them too).
* `unordered_map<char, TrieNode*>` is an association list `List (Char × TrieNode)`.
  `find` / `operator[]` return the first entry with the key, a new key is appended, and
  the iteration order of the range-`for` is the list order.  The order in which a real
  `unordered_map` iterates is unspecified; `TrieNode.SameUpToOrder` relates a trie to
  every reordering of its child mappings and the order-sensitive results are stated
  for all of them.
* `unordered_set<string>` is a `List (List Char)` without duplicates.
* `int` is 32 bits wide and `size_t` 64 bits.  A value stored in an `int` is an `Int`
  between `-2^31` and `2^31 - 1`; the narrowing of a `size_t` to `int`, in
  `int m = s1.length()` and in `offset += ...`, is `toInt32`, and `size_t` sums are
  kept modulo `2^64` (`target.length() + max_dist`, `start_pos + offset`).  Where the
  source would overflow a signed integer the unchecked functions continue with the
  mathematical value and the `...Checked` ones return `none`.
* Heap nodes are owned exclusively by their parent, so a trie is a value of the
  inductive type `TrieNode`; `node_pool` only records the nodes for the destructor.
* The `while` loops of `parseText` take a bound on the number of iterations and return
  `none` when it is reached; the results show that `text.length + 1` is never reached.
  `isalpha` is applied to the byte value of the character.
* The functions named `...Checked` return `none` where the source would fault (index a
  `vector` or a `string` out of bounds, overflow an `int`); `replaceStep` returns `none` where
  `string::replace` would throw.
-/

/-! ## Data model -/

/-- The class `TrieNode`: the terminal flag and the child mapping. -/
inductive TrieNode where
  | mk (is_end : Bool) (children : List (Char × TrieNode)) : TrieNode

namespace TrieNode

/-- Field `is_end`. -/
def is_end : TrieNode → Bool
  | mk e _ => e

/-- Field `children`. -/
def children : TrieNode → List (Char × TrieNode)
  | mk _ cs => cs

/-- Overwrite the child stored under the first entry with key `c`
(the effect of mutating the node `children[c]` points to). -/
def setChild (c : Char) (t : TrieNode) : List (Char × TrieNode) → List (Char × TrieNode)
  | [] => []
  | (k, v) :: rest => if k = c then (k, t) :: rest else (k, v) :: setChild c t rest

end TrieNode

/-- Narrowing conversion to the 32-bit `int` (two's complement). -/
def toInt32 (x : Int) : Int :=
  (x + 2 ^ 31) % 2 ^ 32 - 2 ^ 31

namespace OptimizedTrie

/-- The constructor: `root = new TrieNode()`. -/
def empty : TrieNode := TrieNode.mk false []

/-- The loop `for (char c : word)` of `insert` started at node `curr`, followed by
`curr->is_end = true`. -/
def insertFrom : List Char → TrieNode → TrieNode
  | [], .mk _ cs => .mk true cs
  | c :: w, .mk e cs =>
    match cs.lookup c with
    | none => .mk e (cs ++ [(c, insertFrom w (.mk false []))])
    | some child => .mk e (TrieNode.setChild c (insertFrom w child) cs)

/-- The method `OptimizedTrie::insert`. -/
def insert (root : TrieNode) (word : List Char) : TrieNode :=
  if word.isEmpty then root else insertFrom word root

/-- The loop of `search` started at node `curr`, followed by `return curr->is_end`. -/
def searchFrom : List Char → TrieNode → Bool
  | [], .mk e _ => e
  | c :: w, .mk _ cs =>
    match cs.lookup c with
    | none => false
    | some child => searchFrom w child

/-- The method `OptimizedTrie::search`. -/
def search (root : TrieNode) (word : List Char) : Bool :=
  if word.isEmpty then false else searchFrom word root

/-- Read `dp[r][j]`. -/
def dpGet (dp : List (List Int)) (r j : Nat) : Int :=
  (dp.getD r []).getD j 0

/-- Write `dp[r][j] = v`. -/
def dpSet (dp : List (List Int)) (r j : Nat) (v : Int) : List (List Int) :=
  dp.set r ((dp.getD r []).set j v)

/-- Body of the inner loop of `editDistance` (one cell `dp[curr][j]`). -/
def editCell (s1 s2 : List Char) (i : Nat) (dp : List (List Int)) (j : Nat) :
    List (List Int) :=
  let curr := i % 2
  let prev := 1 - curr
  if s1[i - 1]? = s2[j - 1]? then
    dpSet dp curr j (dpGet dp prev (j - 1))
  else
    dpSet dp curr j
      (1 + min (dpGet dp prev j) (min (dpGet dp curr (j - 1)) (dpGet dp prev (j - 1))))

/-- Body of the outer loop of `editDistance` (one row `i`); `n` is the `int n` of the
source, the inner loop runs `j` from `1` to `n`. -/
def editRow (s1 s2 : List Char) (n : Int) (dp : List (List Int)) (i : Nat) :
    List (List Int) :=
  (List.range' 1 n.toNat).foldl (editCell s1 s2 i) (dpSet dp (i % 2) 0 (i : Int))

/-- The method `OptimizedTrie::editDistance`: `m` and `n` are the lengths narrowed to `int`;
two rolling rows of `n + 1` cells, with the early return `3` when `m` and `n` differ by
more than two.  The loops run `j` from `0` to `n` and `i` from `1` to `m` (not at all when
the bound is negative); `m % 2` is the truncating remainder of C++.  Reads out of bounds
yield `0` here and writes out of bounds are dropped; `editDistanceChecked` reports them. -/
def editDistance (s1 s2 : List Char) : Int :=
  let m : Int := toInt32 s1.length
  let n : Int := toInt32 s2.length
  if |m - n| > 2 then 3
  else
    let dp : List (List Int) := List.replicate 2 (List.replicate (n + 1).toNat 0)
    let dp := (List.range (n + 1).toNat).foldl (fun dp j => dpSet dp 0 j (j : Int)) dp
    let dp := (List.range' 1 m.toNat).foldl (editRow s1 s2 n) dp
    dpGet dp (Int.tmod m 2).toNat n.toNat

/-- The value of `target.length() + max_dist` in `size_t` arithmetic. -/
def pruneBound (target : List Char) (max_dist : Int) : Int :=
  ((target.length : Int) + max_dist) % 2 ^ 64

mutual
/-- The method `OptimizedTrie::dfs`; the vector `suggestions` is passed in and returned,
`current` with the pushed character is passed down (push, recurse, pop). -/
def dfs : TrieNode → List Char → List Char → Int → List (List Char) → List (List Char)
  | .mk is_end children, target, current, max_dist, suggestions =>
    if suggestions.length ≥ 10 then suggestions
    else
      let suggestions :=
        if is_end && !current.isEmpty then
          if editDistance current target ≤ max_dist then suggestions ++ [current]
          else suggestions
        else suggestions
      if (current.length : Int) > pruneBound target max_dist then suggestions
      else dfsChildren children target current max_dist suggestions
/-- The loop `for (auto& [ch, child] : node->children)` of `dfs`. -/
def dfsChildren :
    List (Char × TrieNode) → List Char → List Char → Int → List (List Char) →
      List (List Char)
  | [], _, _, _, suggestions => suggestions
  | (ch, child) :: rest, target, current, max_dist, suggestions =>
    dfsChildren rest target current max_dist
      (dfs child target (current ++ [ch]) max_dist suggestions)
end

/-- The method `OptimizedTrie::getSuggestions`. -/
def getSuggestions (root : TrieNode) (word : List Char) (max_dist : Int) :
    List (List Char) :=
  let suggestions := dfs root word [] max_dist []
  if suggestions.length > 10 then suggestions.take 10 else suggestions

/-- The trie obtained from the empty one by inserting `words` in order. -/
def build (words : List (List Char)) : TrieNode :=
  words.foldl insert empty

end OptimizedTrie

/-! ## Normaliser -/

/-- The C library `isalpha` in the default "C" locale, on `0..255`. -/
def isalpha (i : Nat) : Bool :=
  (65 ≤ i && i ≤ 90) || (97 ≤ i && i ≤ 122)

/-- The C library `tolower` in the default "C" locale. -/
def tolower (i : Nat) : Nat :=
  if 65 ≤ i ∧ i ≤ 90 then i + 32 else i

/-- The static members of `FastNormalizer`. -/
structure FastNormalizer where
  lookup_table : List Bool
  initialized : Bool

namespace FastNormalizer

/-- Static storage before the first call: zero-initialised table, `initialized = false`. -/
def initial : FastNormalizer := ⟨List.replicate 256 false, false⟩

/-- The lazy initialisation at the head of `normalize`. -/
def ensureInit (st : FastNormalizer) : FastNormalizer :=
  if !st.initialized then
    ⟨(List.range 256).foldl (fun tbl i => tbl.set i (isalpha i)) st.lookup_table, true⟩
  else st

/-- The method `FastNormalizer::normalize`; returns the result and the static state. -/
def normalize (st : FastNormalizer) (s : List Char) : List Char × FastNormalizer :=
  let st := ensureInit st
  let result := s.foldl
    (fun result c =>
      if st.lookup_table.getD c.toNat false then result ++ [Char.ofNat (tolower c.toNat)]
      else result) []
  (result, st)

/-- The static state after normalising each string of `calls` in turn. -/
def after (calls : List (List Char)) : FastNormalizer :=
  calls.foldl (fun st s => (normalize st s).2) initial

end FastNormalizer

/-! ## Dictionary manager -/

/-- The members of `DictionaryManager`: the trie and the exact index `word_set`. -/
structure DictionaryManager where
  dictionary : TrieNode
  word_set : List (List Char)

namespace DictionaryManager

/-- The method `unordered_set::insert`. -/
def setInsert (s : List (List Char)) (w : List Char) : List (List Char) :=
  if w ∈ s then s else s ++ [w]

/-- The method `unordered_set::count`. -/
def setCount (s : List (List Char)) (w : List Char) : Nat :=
  if w ∈ s then 1 else 0

/-- The state built by the constructor before `loadDictionary` runs. -/
def initial : DictionaryManager := ⟨OptimizedTrie.empty, []⟩

/-- The two insertions of the loading loop:
`dictionary->insert(normalized); word_set.insert(normalized);`. -/
def insertWord (dm : DictionaryManager) (w : List Char) : DictionaryManager :=
  ⟨OptimizedTrie.insert dm.dictionary w, setInsert dm.word_set w⟩

/-- A sequence of insertions into the initially empty trie and exact index. -/
def insertWords (ws : List (List Char)) : DictionaryManager :=
  ws.foldl insertWord initial

/-- The loop of `loadDictionary` over the whitespace-delimited tokens of the file. -/
def loadDictionary (norm : FastNormalizer) (tokens : List (List Char)) :
    DictionaryManager × FastNormalizer :=
  tokens.foldl
    (fun (st : DictionaryManager × FastNormalizer) word =>
      let r := FastNormalizer.normalize st.2 word
      if !r.1.isEmpty then (insertWord st.1 r.1, r.2) else (st.1, r.2))
    (initial, norm)

/-- The method `DictionaryManager::isCorrect`. -/
def isCorrect (dm : DictionaryManager) (word : List Char) : Bool :=
  decide (setCount dm.word_set word > 0)

/-- The method `DictionaryManager::getSuggestions`. -/
def getSuggestions (dm : DictionaryManager) (word : List Char) : List (List Char) :=
  OptimizedTrie.getSuggestions dm.dictionary word 1

end DictionaryManager

/-! ## Reference notions used in the statements -/

/-- Reference Levenshtein distance: insertion, deletion and substitution cost one,
a match costs nothing. -/
def levDist (a b : List Char) : Nat :=
  levenshtein Levenshtein.defaultCost a b

/-- An alignment of `a` with `b` using `n` unit-cost edits (deletions, insertions,
substitutions of differing characters). -/
inductive EditScript : List Char → List Char → Nat → Prop
  | nil : EditScript [] [] 0
  | delete (x : Char) {a b : List Char} {n : Nat} :
      EditScript a b n → EditScript (x :: a) b (n + 1)
  | insert (y : Char) {a b : List Char} {n : Nat} :
      EditScript a b n → EditScript a (y :: b) (n + 1)
  | subst (x y : Char) {a b : List Char} {n : Nat} :
      EditScript a b n → EditScript (x :: a) (y :: b) (n + if x = y then 0 else 1)

namespace OptimizedTrie

/-- Two rows of `n + 1` cells. -/
def DpShape (n : Nat) (dp : List (List Int)) : Prop :=
  dp.length = 2 ∧ ∀ r, r < 2 → (dp.getD r []).length = n + 1

/-- Entry `(i, j)` of the full Levenshtein table of `s1` and `s2`. -/
def levTable (s1 s2 : List Char) (i j : Nat) : Int :=
  (levDist (s1.take i) (s2.take j) : Nat)

end OptimizedTrie

/-! ## Notions used to describe the traversal -/

namespace TrieNode

/-- `hasPath w t`: following the characters of `w` from `t`, through some child stored
under each character, ends in a terminal node. -/
def hasPath : List Char → TrieNode → Prop
  | [], .mk e _ => e = true
  | c :: w, .mk _ cs => ∃ child, (c, child) ∈ cs ∧ hasPath w child

mutual
/-- The length of the longest path from the node downwards. -/
def height : TrieNode → Nat
  | .mk _ cs => heightChildren cs
/-- One more than the largest height of a child in the list; `0` for no child. -/
def heightChildren : List (Char × TrieNode) → Nat
  | [] => 0
  | (_, t) :: rest => max (height t + 1) (heightChildren rest)
end

mutual
/-- Every child mapping of the trie holds each character at most once. -/
def WF : TrieNode → Prop
  | .mk _ cs => (cs.map Prod.fst).Nodup ∧ WFChildren cs
/-- Every child in the list is well formed. -/
def WFChildren : List (Char × TrieNode) → Prop
  | [] => True
  | (_, t) :: rest => WF t ∧ WFChildren rest
end

mutual
/-- `SameUpToOrder t u`: `u` is `t` with the entries of every child mapping listed in
some other order (the same terminal flags, the same characters, the same subtrees up to
order). -/
def SameUpToOrder : TrieNode → TrieNode → Prop
  | .mk e cs, u => e = u.is_end ∧ SameChildren cs u.children
/-- The entries `cs`, in some order and with reordered subtrees, are exactly `ds`. -/
def SameChildren : List (Char × TrieNode) → List (Char × TrieNode) → Prop
  | [], ds => ds = []
  | (c, t) :: rest, ds =>
    ∃ u l r, ds = l ++ (c, u) :: r ∧ SameUpToOrder t u ∧ SameChildren rest (l ++ r)
end

end TrieNode

namespace OptimizedTrie

mutual
/-- The list `dfs` appends when the early exit on ten suggestions is left out. -/
def collect : TrieNode → List Char → List Char → Int → List (List Char)
  | .mk is_end children, target, current, max_dist =>
    (if is_end && !current.isEmpty then
      if editDistance current target ≤ max_dist then [current] else []
    else []) ++
    (if (current.length : Int) > pruneBound target max_dist then []
    else collectChildren children target current max_dist)
/-- The list the child loop of `dfs` appends when the early exit is left out. -/
def collectChildren : List (Char × TrieNode) → List Char → List Char → Int → List (List Char)
  | [], _, _, _ => []
  | (ch, child) :: rest, target, current, max_dist =>
    collect child target (current ++ [ch]) max_dist ++
      collectChildren rest target current max_dist
end

end OptimizedTrie

/-! ## Vocabulary notions and example data used in the statements -/

/-- The distinct non-empty words of `ws` whose reference Levenshtein distance to `target` is
at most `max_dist`. -/
def matchingWords (ws : List (List Char)) (target : List Char) (max_dist : Int) :
    List (List Char) :=
  (ws.filter (fun w => decide (w ≠ [] ∧ (levDist w target : Int) ≤ max_dist))).dedup

/-- The word "abcdefghijklmn" preceded by its prefixes of lengths one to ten. -/
def chainWords : List (List Char) :=
  ["a".toList, "ab".toList, "abc".toList, "abcd".toList, "abcde".toList,
    "abcdef".toList, "abcdefg".toList, "abcdefgh".toList, "abcdefghi".toList,
    "abcdefghij".toList, "abcdefghijklmn".toList]

/-- The vocabulary of the scenario: "cat", "cap", "car", "dog". -/
def scenarioWords : List (List Char) :=
  ["cat".toList, "cap".toList, "car".toList, "dog".toList]

/-! ## Variants of the traversal used in the statements -/

namespace OptimizedTrie

mutual
/-- The method `dfs` with the early exit `if (suggestions.size() >= 10) return;` removed. -/
def dfsUncapped : TrieNode → List Char → List Char → Int → List (List Char) → List (List Char)
  | .mk is_end children, target, current, max_dist, suggestions =>
    let suggestions :=
      if is_end && !current.isEmpty then
        if editDistance current target ≤ max_dist then suggestions ++ [current]
        else suggestions
      else suggestions
    if (current.length : Int) > pruneBound target max_dist then suggestions
    else dfsChildrenUncapped children target current max_dist suggestions
/-- The child loop of `dfsUncapped`. -/
def dfsChildrenUncapped :
    List (Char × TrieNode) → List Char → List Char → Int → List (List Char) →
      List (List Char)
  | [], _, _, _, suggestions => suggestions
  | (ch, child) :: rest, target, current, max_dist, suggestions =>
    dfsChildrenUncapped rest target current max_dist
      (dfsUncapped child target (current ++ [ch]) max_dist suggestions)
end

mutual
/-- The method `dfs` with the pruning test
`if (current.length() > target.length() + max_dist) return;` removed. -/
def dfsUnpruned : TrieNode → List Char → List Char → Int → List (List Char) → List (List Char)
  | .mk is_end children, target, current, max_dist, suggestions =>
    if suggestions.length ≥ 10 then suggestions
    else
      let suggestions :=
        if is_end && !current.isEmpty then
          if editDistance current target ≤ max_dist then suggestions ++ [current]
          else suggestions
        else suggestions
      dfsChildrenUnpruned children target current max_dist suggestions
/-- The child loop of `dfsUnpruned`. -/
def dfsChildrenUnpruned :
    List (Char × TrieNode) → List Char → List Char → Int → List (List Char) →
      List (List Char)
  | [], _, _, _, suggestions => suggestions
  | (ch, child) :: rest, target, current, max_dist, suggestions =>
    dfsChildrenUnpruned rest target current max_dist
      (dfsUnpruned child target (current ++ [ch]) max_dist suggestions)
end

/-- The method `getSuggestions` over the traversal without the pruning test. -/
def getSuggestionsUnpruned (root : TrieNode) (word : List Char) (max_dist : Int) :
    List (List Char) :=
  let suggestions := dfsUnpruned root word [] max_dist []
  if suggestions.length > 10 then suggestions.take 10 else suggestions

end OptimizedTrie

/-! ## The edit distance and the traversal with every index checked -/

namespace OptimizedTrie

/-- Read `dp[r][j]`; `none` when `r` or `j` is out of bounds. -/
def dpGetChecked (dp : List (List Int)) (r j : Nat) : Option Int :=
  match dp[r]? with
  | none => none
  | some row => row[j]?

/-- Write `dp[r][j] = v`; `none` when `r` or `j` is out of bounds. -/
def dpSetChecked (dp : List (List Int)) (r j : Nat) (v : Int) : Option (List (List Int)) :=
  match dp[r]? with
  | none => none
  | some row => if j < row.length then some (dp.set r (row.set j v)) else none

/-- Body of the inner loop of `editDistance`, every access to `s1`, `s2` and `dp` checked. -/
def editCellChecked (s1 s2 : List Char) (i : Nat) (dp : List (List Int)) (j : Nat) :
    Option (List (List Int)) :=
  let curr := i % 2
  let prev := 1 - curr
  match s1[i - 1]?, s2[j - 1]? with
  | some a, some b =>
    if a = b then
      match dpGetChecked dp prev (j - 1) with
      | none => none
      | some d => dpSetChecked dp curr j d
    else
      match dpGetChecked dp prev j, dpGetChecked dp curr (j - 1), dpGetChecked dp prev (j - 1) with
      | some x, some y, some z => dpSetChecked dp curr j (1 + min x (min y z))
      | _, _, _ => none
  | _, _ => none

/-- Body of the outer loop of `editDistance`, every access checked. -/
def editRowChecked (s1 s2 : List Char) (n : Int) (dp : List (List Int)) (i : Nat) :
    Option (List (List Int)) :=
  match dpSetChecked dp (i % 2) 0 (i : Int) with
  | none => none
  | some dp => (List.range' 1 n.toNat).foldlM (editCellChecked s1 s2 i) dp

/-- The method `editDistance` with every step checked.  `none` stands for a fault of the
source: a signed overflow (in `m - n`, in `n + 1`, or of a loop counter that would have to
pass `2^31 - 1`), a negative size given to `vector`, or an index out of bounds. -/
def editDistanceChecked (s1 s2 : List Char) : Option Int :=
  let m : Int := toInt32 s1.length
  let n : Int := toInt32 s2.length
  if m - n ≤ -2 ^ 31 ∨ m - n ≥ 2 ^ 31 then none
  else if |m - n| > 2 then some 3
  else if n + 1 < 0 ∨ n + 1 ≥ 2 ^ 31 ∨ m + 1 ≥ 2 ^ 31 then none
  else
    let dp : List (List Int) := List.replicate 2 (List.replicate (n + 1).toNat 0)
    match (List.range (n + 1).toNat).foldlM (fun dp j => dpSetChecked dp 0 j (j : Int)) dp with
    | none => none
    | some dp =>
      match (List.range' 1 m.toNat).foldlM (editRowChecked s1 s2 n) dp with
      | none => none
      | some dp =>
        if Int.tmod m 2 < 0 ∨ n < 0 then none
        else dpGetChecked dp (Int.tmod m 2).toNat n.toNat

mutual
/-- The method `dfs` over `editDistanceChecked`: `none` when a call of `editDistance` faults. -/
def dfsChecked :
    TrieNode → List Char → List Char → Int → List (List Char) → Option (List (List Char))
  | .mk is_end children, target, current, max_dist, suggestions =>
    if suggestions.length ≥ 10 then some suggestions
    else
      match (if is_end && !current.isEmpty then
          match editDistanceChecked current target with
          | none => none
          | some dist => if dist ≤ max_dist then some (suggestions ++ [current])
            else some suggestions
        else some suggestions) with
      | none => none
      | some suggestions =>
        if (current.length : Int) > pruneBound target max_dist then some suggestions
        else dfsChildrenChecked children target current max_dist suggestions
/-- The child loop of `dfsChecked`. -/
def dfsChildrenChecked :
    List (Char × TrieNode) → List Char → List Char → Int → List (List Char) →
      Option (List (List Char))
  | [], _, _, _, suggestions => some suggestions
  | (ch, child) :: rest, target, current, max_dist, suggestions =>
    match dfsChecked child target (current ++ [ch]) max_dist suggestions with
    | none => none
    | some suggestions => dfsChildrenChecked rest target current max_dist suggestions
end

/-- The method `getSuggestions` over `dfsChecked`. -/
def getSuggestionsChecked (root : TrieNode) (word : List Char) (max_dist : Int) :
    Option (List (List Char)) :=
  match dfsChecked root word [] max_dist [] with
  | none => none
  | some suggestions =>
    some (if suggestions.length > 10 then suggestions.take 10 else suggestions)

end OptimizedTrie

/-! ## The words the loading loop stores -/

/-- The non-empty normal forms (ASCII letters kept, in lower case) of the tokens, in order. -/
def storedWords (tokens : List (List Char)) : List (List Char) :=
  (tokens.map (fun s => (s.filter Char.isAlpha).map Char.toLower)).filter
    (fun w => !w.isEmpty)

/-! ## Text processor -/

/-- The struct `TextProcessor::WordInfo`. -/
structure WordInfo where
  word : List Char
  start_pos : Nat
  end_pos : Nat
  is_correct : Bool
  deriving DecidableEq

namespace TextProcessor

/-- The inner loop of `parseText`,
`while (i < original_text.length() && isalpha(original_text[i])) word += original_text[i++];`
returning the final `i` and `word`.  The first argument bounds the number of iterations;
`none` means the bound was reached. -/
def extractWord (text : List Char) : Nat → Nat → List Char → Option (Nat × List Char)
  | 0, _, _ => none
  | fuel + 1, i, word =>
    match text[i]? with
    | none => some (i, word)
    | some c =>
      if isalpha c.toNat then extractWord text fuel (i + 1) (word ++ [c])
      else some (i, word)

/-- The outer loop of `parseText` from position `i`, with the static state of the
normaliser passed along.  The first argument bounds the number of iterations; `none` means
the bound was reached. -/
def parseLoop (dict : DictionaryManager) (text : List Char) :
    Nat → Nat → FastNormalizer → List WordInfo → Option (List WordInfo × FastNormalizer)
  | 0, _, _, _ => none
  | fuel + 1, i, norm, words =>
    match text[i]? with
    | none => some (words, norm)
    | some c =>
      if isalpha c.toNat then
        match extractWord text (text.length + 1) i [] with
        | none => none
        | some (j, word) =>
          let r := FastNormalizer.normalize norm word
          let correct := r.1.isEmpty || dict.isCorrect r.1
          parseLoop dict text fuel j r.2 (words ++ [⟨word, i, j, correct⟩])
      else parseLoop dict text fuel (i + 1) norm words

/-- The method `TextProcessor::parseText` on `original_text`, with `dict` the loaded
dictionary instance; returns the vector `words`. -/
def parseText (dict : DictionaryManager) (norm : FastNormalizer) (original_text : List Char) :
    Option (List WordInfo × FastNormalizer) :=
  parseLoop dict original_text (original_text.length + 1) 0 norm []

/-- One iteration of the loop of `saveWithReplacements` on `(result, offset)`.
`pos = start_pos + offset` is a `size_t` sum (modulo `2^64`); `offset += ...` adds the
`size_t` difference of the two lengths and narrows the sum to `int`.  `none` stands for
the `std::out_of_range` that `replace` throws when `pos > size()`. -/
def replaceStep (replacements : List (List Char × List Char)) (st : List Char × Int)
    (wordInfo : WordInfo) : Option (List Char × Int) :=
  match replacements.lookup wordInfo.word with
  | none => some st
  | some rep =>
    let pos : Int := ((wordInfo.start_pos : Int) + st.2) % 2 ^ 64
    if pos > (st.1.length : Int) then none
    else
      some (st.1.take pos.toNat ++ rep ++ st.1.drop (pos.toNat + wordInfo.word.length),
        toInt32 (st.2 + ((rep.length : Int) - (wordInfo.word.length : Int))))

/-- The method `TextProcessor::saveWithReplacements`: the string `result` it writes out. -/
def saveWithReplacements (original_text : List Char) (words : List WordInfo)
    (replacements : List (List Char × List Char)) : Option (List Char) :=
  match words.foldlM (replaceStep replacements) (original_text, 0) with
  | none => none
  | some st => some st.1

/-- The text from position `p` on, in which every span of `words` whose word is a key of
`replacements` is replaced by the mapped string and every other character is kept. -/
def rewritten (text : List Char) (replacements : List (List Char × List Char)) :
    List WordInfo → Nat → List Char
  | [], p => text.drop p
  | w :: ws, p =>
    (text.drop p).take (w.start_pos - p) ++
      (match replacements.lookup w.word with
        | some rep => rep
        | none => (text.drop w.start_pos).take (w.end_pos - w.start_pos)) ++
      rewritten text replacements ws w.end_pos

/-- Invariant of `parseText`: from position `p` on, `words` are exactly the maximal runs of
letters of `text`, in order, with the flags computed from `dict`. -/
def Spans (dict : DictionaryManager) (text : List Char) : Nat → List WordInfo → Prop
  | p, [] => ∀ k c, p ≤ k → text[k]? = some c → c.isAlpha = false
  | p, w :: ws =>
    p ≤ w.start_pos ∧
      (∀ k c, p ≤ k → k < w.start_pos → text[k]? = some c → c.isAlpha = false) ∧
      (∃ c, text[w.start_pos]? = some c ∧ c.isAlpha = true) ∧
      w.start_pos < w.end_pos ∧ w.end_pos ≤ text.length ∧
      w.word = (text.drop w.start_pos).take (w.end_pos - w.start_pos) ∧
      (∀ c ∈ w.word, c.isAlpha = true) ∧
      (∀ c, text[w.end_pos]? = some c → c.isAlpha = false) ∧
      w.is_correct = dict.isCorrect ((w.word.filter Char.isAlpha).map Char.toLower) ∧
      Spans dict text w.end_pos ws

end TextProcessor

/-- A string of `2^32 + 1` letters "a": its length narrows to the `int` value `1`. -/
def wrapString : List Char :=
  'a' :: List.replicate 4294967296 'a'
/-! ## Levenshtein distance: recurrences -/

theorem levDist_nil_left (b : List Char) : levDist [] b = b.length := by
  induction b with
  | nil => simp [levDist]
  | cons y b ih =>
    have h : levDist [] (y :: b) = 1 + levDist [] b := by simp [levDist]
    rw [h, ih, List.length_cons]; omega

theorem levDist_nil_right (a : List Char) : levDist a [] = a.length := by
  induction a with
  | nil => simp [levDist]
  | cons x a ih =>
    have h : levDist (x :: a) [] = 1 + levDist a [] := by simp [levDist]
    rw [h, ih, List.length_cons]; omega

theorem levDist_cons_cons (x y : Char) (a b : List Char) :
    levDist (x :: a) (y :: b) =
      min (1 + levDist a (y :: b))
        (min (1 + levDist (x :: a) b) ((if x = y then 0 else 1) + levDist a b)) := by
  simp [levDist]

theorem levDist_cons_le (x : Char) (a b : List Char) :
    levDist (x :: a) b ≤ 1 + levDist a b := by
  cases b with
  | nil => simp [levDist_nil_right]; omega
  | cons y b => rw [levDist_cons_cons]; exact min_le_left _ _

theorem levDist_le_cons (y : Char) (a b : List Char) :
    levDist a (y :: b) ≤ 1 + levDist a b := by
  cases a with
  | nil => simp [levDist_nil_left]; omega
  | cons x a =>
    rw [levDist_cons_cons]
    exact le_trans (min_le_right _ _) (min_le_left _ _)

theorem levDist_le_of_script {a b : List Char} {n : Nat} (h : EditScript a b n) :
    levDist a b ≤ n := by
  induction h with
  | nil => simp [levDist_nil_left]
  | delete x _ ih => exact le_trans (levDist_cons_le x _ _) (by omega)
  | insert y _ ih => exact le_trans (levDist_le_cons y _ _) (by omega)
  | subst x y _ ih =>
    rw [levDist_cons_cons]
    refine le_trans (min_le_right _ _) (le_trans (min_le_right _ _) ?_)
    omega

theorem EditScript.cast {a b : List Char} {n m : Nat} (h : EditScript a b n) (e : n = m) :
    EditScript a b m := e ▸ h

theorem script_nil_left (b : List Char) : EditScript [] b b.length := by
  induction b with
  | nil => exact EditScript.nil
  | cons y b ih => exact (EditScript.insert y ih).cast (by simp)

theorem script_nil_right (a : List Char) : EditScript a [] a.length := by
  induction a with
  | nil => exact EditScript.nil
  | cons x a ih => exact (EditScript.delete x ih).cast (by simp)

theorem script_levDist (a b : List Char) : EditScript a b (levDist a b) := by
  induction a generalizing b with
  | nil => rw [levDist_nil_left]; exact script_nil_left b
  | cons x a iha =>
    induction b with
    | nil => rw [levDist_nil_right]; exact script_nil_right _
    | cons y b ihb =>
      rw [levDist_cons_cons]
      rcases min_choice (1 + levDist a (y :: b))
          (min (1 + levDist (x :: a) b) ((if x = y then 0 else 1) + levDist a b)) with h | h
      · rw [h]; exact (EditScript.delete x (iha (y :: b))).cast (by omega)
      · rw [h]
        rcases min_choice (1 + levDist (x :: a) b)
            ((if x = y then 0 else 1) + levDist a b) with h' | h'
        · rw [h']; exact (EditScript.insert y ihb).cast (by omega)
        · rw [h']; exact (EditScript.subst x y (iha b)).cast (by omega)

theorem script_snoc_delete (x : Char) {a b : List Char} {n : Nat} (h : EditScript a b n) :
    EditScript (a ++ [x]) b (n + 1) := by
  induction h with
  | nil => exact EditScript.delete x EditScript.nil
  | delete x' _ ih => exact EditScript.delete x' ih
  | insert y' _ ih => exact EditScript.insert y' ih
  | subst x' y' _ ih => exact (EditScript.subst x' y' ih).cast (by omega)

theorem script_snoc_insert (y : Char) {a b : List Char} {n : Nat} (h : EditScript a b n) :
    EditScript a (b ++ [y]) (n + 1) := by
  induction h with
  | nil => exact EditScript.insert y EditScript.nil
  | delete x' _ ih => exact EditScript.delete x' ih
  | insert y' _ ih => exact EditScript.insert y' ih
  | subst x' y' _ ih => exact (EditScript.subst x' y' ih).cast (by omega)

theorem script_snoc_subst (x y : Char) {a b : List Char} {n : Nat} (h : EditScript a b n) :
    EditScript (a ++ [x]) (b ++ [y]) (n + if x = y then 0 else 1) := by
  induction h with
  | nil => exact (EditScript.subst x y EditScript.nil).cast (by omega)
  | delete x' _ ih => exact (EditScript.delete x' ih).cast (by omega)
  | insert y' _ ih => exact (EditScript.insert y' ih).cast (by omega)
  | subst x' y' _ ih => exact (EditScript.subst x' y' ih).cast (by omega)

theorem script_reverse {a b : List Char} {n : Nat} (h : EditScript a b n) :
    EditScript a.reverse b.reverse n := by
  induction h with
  | nil => exact EditScript.nil
  | delete x _ ih => rw [List.reverse_cons]; exact script_snoc_delete x ih
  | insert y _ ih => rw [List.reverse_cons]; exact script_snoc_insert y ih
  | subst x y _ ih => rw [List.reverse_cons, List.reverse_cons]; exact script_snoc_subst x y ih

theorem levDist_reverse (a b : List Char) : levDist a.reverse b.reverse = levDist a b := by
  apply le_antisymm
  · exact levDist_le_of_script (script_reverse (script_levDist a b))
  · have h := levDist_le_of_script (script_reverse (script_levDist a.reverse b.reverse))
    simpa using h

theorem script_length {a b : List Char} {n : Nat} (h : EditScript a b n) :
    a.length ≤ b.length + n ∧ b.length ≤ a.length + n := by
  induction h with
  | nil => simp
  | delete x _ ih => simp only [List.length_cons]; omega
  | insert y _ ih => simp only [List.length_cons]; omega
  | subst x y _ ih => simp only [List.length_cons]; omega

theorem length_le_levDist (a b : List Char) :
    a.length ≤ b.length + levDist a b ∧ b.length ≤ a.length + levDist a b :=
  script_length (script_levDist a b)

theorem levDist_le_add_cons_right (y : Char) (a b : List Char) :
    levDist a b ≤ 1 + levDist a (y :: b) := by
  induction a generalizing b y with
  | nil => simp [levDist_nil_left]; omega
  | cons x a ih =>
    have hd := levDist_cons_le x a b
    have h1 := ih y b
    rw [levDist_cons_cons]
    split <;> omega

theorem levDist_le_add_cons_left (x : Char) (a b : List Char) :
    levDist a b ≤ 1 + levDist (x :: a) b := by
  induction b generalizing a x with
  | nil => simp [levDist_nil_right]; omega
  | cons y b ih =>
    have hd := levDist_le_cons y a b
    have h1 := ih x a
    rw [levDist_cons_cons]
    split <;> omega

theorem levDist_cons_cons_eq (x : Char) (a b : List Char) :
    levDist (x :: a) (x :: b) = levDist a b := by
  have h1 := levDist_le_add_cons_right x a b
  have h2 := levDist_le_add_cons_left x a b
  rw [levDist_cons_cons]
  simp only [if_true, Nat.zero_add]
  omega

theorem levDist_self (a : List Char) : levDist a a = 0 := by
  induction a with
  | nil => simp [levDist]
  | cons x a ih => rw [levDist_cons_cons_eq, ih]

theorem levDist_cons_cons_ne {x y : Char} (h : x ≠ y) (a b : List Char) :
    levDist (x :: a) (y :: b) =
      1 + min (levDist a (y :: b)) (min (levDist (x :: a) b) (levDist a b)) := by
  rw [levDist_cons_cons]
  simp only [if_neg h]
  omega

theorem levDist_snoc_snoc_eq (x : Char) (a b : List Char) :
    levDist (a ++ [x]) (b ++ [x]) = levDist a b := by
  rw [← levDist_reverse, List.reverse_append, List.reverse_append]
  simp only [List.reverse_cons, List.reverse_nil, List.nil_append, List.singleton_append]
  rw [levDist_cons_cons_eq, levDist_reverse]

theorem levDist_snoc_snoc_ne {x y : Char} (h : x ≠ y) (a b : List Char) :
    levDist (a ++ [x]) (b ++ [y]) =
      1 + min (levDist a (b ++ [y])) (min (levDist (a ++ [x]) b) (levDist a b)) := by
  have e1 : levDist a (b ++ [y]) = levDist a.reverse (y :: b.reverse) := by
    rw [← levDist_reverse]; simp
  have e2 : levDist (a ++ [x]) b = levDist (x :: a.reverse) b.reverse := by
    rw [← levDist_reverse]; simp
  rw [e1, e2, ← levDist_reverse a b, ← levDist_cons_cons_ne h, ← levDist_reverse]
  simp

/-! ## The rolling-row computation equals the reference distance -/

namespace OptimizedTrie

theorem dpShape_set {n : Nat} {dp : List (List Int)} (h : DpShape n dp) (r j : Nat) (v : Int) :
    DpShape n (dpSet dp r j v) := by
  obtain ⟨h2, hr⟩ := h
  refine ⟨by simp [dpSet, h2], ?_⟩
  intro r' hr'
  have := hr r' hr'
  have hr0 := hr r
  by_cases e : r = r'
  · subst e
    simp only [dpSet, List.getD_eq_getElem?_getD] at *
    rw [List.getElem?_set_self (by omega)]
    simp only [Option.getD_some, List.length_set]
    exact this
  · simp only [dpSet, List.getD_eq_getElem?_getD] at *
    rw [List.getElem?_set_ne e]
    exact this

theorem dpGet_set {n : Nat} {dp : List (List Int)} (h : DpShape n dp) {r j : Nat}
    (hr : r < 2) (hj : j ≤ n) (v : Int) (r' j' : Nat) :
    dpGet (dpSet dp r j v) r' j' = if r = r' ∧ j = j' then v else dpGet dp r' j' := by
  obtain ⟨h2, hlen⟩ := h
  have hl := hlen r hr
  by_cases e : r = r'
  · subst e
    simp only [dpSet, dpGet, List.getD_eq_getElem?_getD] at *
    rw [List.getElem?_set_self (by omega)]
    simp only [Option.getD_some]
    by_cases e' : j = j'
    · subst e'
      rw [List.getElem?_set_self (by omega)]
      simp
    · rw [List.getElem?_set_ne e']
      simp [e']
  · simp only [dpSet, dpGet, List.getD_eq_getElem?_getD]
    rw [List.getElem?_set_ne e]
    simp [e]

theorem levTable_zero_left (s1 s2 : List Char) {j : Nat} (hj : j ≤ s2.length) :
    levTable s1 s2 0 j = j := by
  simp [levTable, levDist_nil_left, hj]

theorem levTable_zero_right (s1 s2 : List Char) {i : Nat} (hi : i ≤ s1.length) :
    levTable s1 s2 i 0 = i := by
  simp [levTable, levDist_nil_right, hi]

theorem levTable_succ_succ (s1 s2 : List Char) {i j : Nat} (hi : i < s1.length)
    (hj : j < s2.length) :
    levTable s1 s2 (i + 1) (j + 1) =
      if s1[i]? = s2[j]? then levTable s1 s2 i j
      else 1 + min (levTable s1 s2 i (j + 1))
        (min (levTable s1 s2 (i + 1) j) (levTable s1 s2 i j)) := by
  have e1 : s1.take (i + 1) = s1.take i ++ [s1[i]] := by
    rw [List.take_succ, List.getElem?_eq_getElem hi]; rfl
  have e2 : s2.take (j + 1) = s2.take j ++ [s2[j]] := by
    rw [List.take_succ, List.getElem?_eq_getElem hj]; rfl
  rw [List.getElem?_eq_getElem hi, List.getElem?_eq_getElem hj]
  simp only [levTable, Option.some.injEq]
  by_cases h : s1[i] = s2[j]
  · rw [if_pos h, e1, e2, h, levDist_snoc_snoc_eq]
  · rw [if_neg h, e1, e2, levDist_snoc_snoc_ne h]
    push_cast
    rfl

end OptimizedTrie

namespace OptimizedTrie

theorem dpShape_init (n : Nat) :
    DpShape n (List.replicate 2 (List.replicate (n + 1) 0)) := by
  refine ⟨by simp, ?_⟩
  intro r hr
  interval_cases r <;> simp [List.replicate]

theorem initRow_fold (n k : Nat) (hk : k ≤ n + 1) (dp0 : List (List Int))
    (h0 : DpShape n dp0) :
    DpShape n ((List.range k).foldl (fun dp j => dpSet dp 0 j (j : Int)) dp0) ∧
      ∀ j < k, dpGet ((List.range k).foldl (fun dp j => dpSet dp 0 j (j : Int)) dp0) 0 j
        = (j : Int) := by
  induction k with
  | zero => simpa using h0
  | succ k ih =>
    rw [List.range_succ, List.foldl_append]
    simp only [List.foldl_cons, List.foldl_nil]
    obtain ⟨hs, hv⟩ := ih (by omega)
    refine ⟨dpShape_set hs _ _ _, ?_⟩
    intro j hj
    rw [dpGet_set hs (by omega) (by omega)]
    by_cases e : k = j
    · simp [e]
    · simp only [e, and_false, if_false]
      exact hv j (by omega)

theorem editCell_fold (s1 s2 : List Char) (i : Nat) (hi : i < s1.length) (k : Nat)
    (hk : k ≤ s2.length) (dp0 : List (List Int)) (hs : DpShape s2.length dp0)
    (hprev : ∀ j ≤ s2.length, dpGet dp0 (i % 2) j = levTable s1 s2 i j)
    (hcur : dpGet dp0 ((i + 1) % 2) 0 = levTable s1 s2 (i + 1) 0) :
    DpShape s2.length ((List.range' 1 k).foldl (editCell s1 s2 (i + 1)) dp0) ∧
      (∀ j ≤ s2.length,
        dpGet ((List.range' 1 k).foldl (editCell s1 s2 (i + 1)) dp0) (i % 2) j
          = levTable s1 s2 i j) ∧
      (∀ j ≤ k,
        dpGet ((List.range' 1 k).foldl (editCell s1 s2 (i + 1)) dp0) ((i + 1) % 2) j
          = levTable s1 s2 (i + 1) j) := by
  induction k with
  | zero =>
    refine ⟨by simpa using hs, by simpa using hprev, ?_⟩
    intro j hj
    have : j = 0 := by omega
    subst this
    simpa using hcur
  | succ k ih =>
    obtain ⟨hs', hp', hc'⟩ := ih (by omega)
    rw [List.range'_1_concat, List.foldl_append]
    simp only [List.foldl_cons, List.foldl_nil]
    generalize (List.range' 1 k).foldl (editCell s1 s2 (i + 1)) dp0 = dp at hs' hp' hc'
    have hpar : 1 - (i + 1) % 2 = i % 2 := by omega
    have hne : (i + 1) % 2 ≠ i % 2 := by omega
    have hlt : (i + 1) % 2 < 2 := by omega
    have hk1 : 1 + k ≤ s2.length := by omega
    have hrec := levTable_succ_succ s1 s2 hi (show k < s2.length by omega)
    have e1 : i + 1 - 1 = i := by omega
    have e2 : 1 + k - 1 = k := by omega
    have e3 : 1 + k = k + 1 := by omega
    have hval : ∀ r' j', dpGet (editCell s1 s2 (i + 1) dp (1 + k)) r' j' =
        if (i + 1) % 2 = r' ∧ 1 + k = j' then levTable s1 s2 (i + 1) (k + 1)
        else dpGet dp r' j' := by
      intro r' j'
      unfold editCell
      simp only [e1, e2, hpar]
      rw [hrec, hp' k (by omega), hp' (1 + k) hk1, hc' k (le_refl k), e3]
      split <;> rw [dpGet_set hs' hlt (by omega)]
    refine ⟨?_, ?_, ?_⟩
    · unfold editCell
      simp only []
      split <;> exact dpShape_set hs' _ _ _
    · intro j hj
      rw [hval, if_neg (by intro h; exact hne h.1)]
      exact hp' j hj
    · intro j hj
      rw [hval]
      by_cases e : 1 + k = j
      · rw [if_pos ⟨rfl, e⟩, ← e, e3]
      · rw [if_neg (by intro h; exact e h.2)]
        exact hc' j (by omega)

theorem editRow_fold (s1 s2 : List Char) (k : Nat) (hk : k ≤ s1.length)
    (dp0 : List (List Int)) (hs : DpShape s2.length dp0)
    (h0 : ∀ j ≤ s2.length, dpGet dp0 0 j = levTable s1 s2 0 j) :
    DpShape s2.length ((List.range' 1 k).foldl (editRow s1 s2 (s2.length : Int)) dp0) ∧
      ∀ j ≤ s2.length,
        dpGet ((List.range' 1 k).foldl (editRow s1 s2 (s2.length : Int)) dp0) (k % 2) j
          = levTable s1 s2 k j := by
  induction k with
  | zero => exact ⟨by simpa using hs, by simpa using h0⟩
  | succ k ih =>
    obtain ⟨hs', hp'⟩ := ih (by omega)
    rw [List.range'_1_concat, List.foldl_append]
    simp only [List.foldl_cons, List.foldl_nil]
    generalize (List.range' 1 k).foldl (editRow s1 s2 (s2.length : Int)) dp0 = dp at hs' hp'
    have e3 : 1 + k = k + 1 := by omega
    have hne : (k + 1) % 2 ≠ k % 2 := by omega
    have hlt : (k + 1) % 2 < 2 := by omega
    rw [e3]
    unfold editRow
    rw [Int.toNat_ofNat]
    have h := editCell_fold s1 s2 k (by omega) s2.length (le_refl _)
      (dpSet dp ((k + 1) % 2) 0 ((k + 1 : Nat) : Int)) (dpShape_set hs' _ _ _)
      (by
        intro j hj
        rw [dpGet_set hs' hlt (by omega), if_neg (by intro h; exact hne h.1)]
        exact hp' j hj)
      (by
        rw [dpGet_set hs' hlt (by omega), if_pos ⟨rfl, rfl⟩,
          levTable_zero_right s1 s2 (show k + 1 ≤ s1.length by omega)])
    exact ⟨h.1, h.2.2⟩

theorem toInt32_natCast {k : Nat} (h : k < 2147483648) : toInt32 (k : Int) = (k : Int) := by
  unfold toInt32
  omega

theorem toNat_tmod_two (k : Nat) : (Int.tmod (k : Int) 2).toNat = k % 2 := by
  have h : Int.tmod (k : Int) 2 = ((k % 2 : Nat) : Int) := (Int.ofNat_tmod k 2).symm
  rw [h, Int.toNat_ofNat]

/-- For strings shorter than `2^31 - 1` the rolling-row loop returns the reference distance;
the early return gives `3`. -/
theorem editDistance_eq (s1 s2 : List Char) (h1 : s1.length < 2147483647)
    (h2 : s2.length < 2147483647) :
    editDistance s1 s2 =
      if |(s1.length : Int) - (s2.length : Int)| > 2 then 3 else (levDist s1 s2 : Int) := by
  unfold editDistance
  rw [toInt32_natCast (show s1.length < 2147483648 by omega),
    toInt32_natCast (show s2.length < 2147483648 by omega)]
  simp only [Int.toNat_ofNat_add_one, Int.toNat_ofNat, toNat_tmod_two]
  split
  · rfl
  · obtain ⟨hs, hv⟩ := initRow_fold s2.length (s2.length + 1) (le_refl _) _
      (dpShape_init s2.length)
    have h := (editRow_fold s1 s2 s1.length (le_refl _) _ hs (by
      intro j hj
      rw [hv j (by omega), levTable_zero_left s1 s2 hj])).2 s2.length (le_refl _)
    rw [h]
    simp [levTable]

end OptimizedTrie

/-! ## The child mapping -/

namespace TrieNode

theorem lookup_head_ne {c k : Char} (h : c ≠ k) (v : TrieNode) (rest : List (Char × TrieNode)) :
    List.lookup c ((k, v) :: rest) = List.lookup c rest := by
  rw [List.lookup_cons]
  have : (c == k) = false := by simpa using h
  rw [this]

theorem lookup_setChild_ne {c d : Char} (h : d ≠ c) (x : TrieNode)
    (cs : List (Char × TrieNode)) :
    List.lookup d (setChild c x cs) = List.lookup d cs := by
  induction cs with
  | nil => rfl
  | cons p rest ih =>
    obtain ⟨k, v⟩ := p
    unfold setChild
    by_cases hk : k = c
    · subst hk
      rw [if_pos rfl, lookup_head_ne h, lookup_head_ne h]
    · rw [if_neg hk]
      by_cases hd : d = k
      · subst hd
        simp
      · rw [lookup_head_ne hd, lookup_head_ne hd, ih]

theorem lookup_setChild_self {c : Char} {child : TrieNode} (x : TrieNode)
    {cs : List (Char × TrieNode)} (h : List.lookup c cs = some child) :
    List.lookup c (setChild c x cs) = some x := by
  induction cs with
  | nil => simp at h
  | cons p rest ih =>
    obtain ⟨k, v⟩ := p
    unfold setChild
    by_cases hk : k = c
    · subst hk
      rw [if_pos rfl]
      simp
    · rw [if_neg hk]
      have hck : c ≠ k := fun e => hk e.symm
      rw [lookup_head_ne hck] at h ⊢
      exact ih h

theorem lookup_append_new {c : Char} (x : TrieNode) {cs : List (Char × TrieNode)}
    (h : List.lookup c cs = none) (d : Char) :
    List.lookup d (cs ++ [(c, x)]) = if d = c then some x else List.lookup d cs := by
  induction cs with
  | nil =>
    by_cases hd : d = c
    · subst hd
      simp
    · rw [if_neg hd, List.nil_append, lookup_head_ne hd]
  | cons p rest ih =>
    obtain ⟨k, v⟩ := p
    have hck : c ≠ k := by
      intro e
      subst e
      simp at h
    rw [lookup_head_ne hck] at h
    rw [List.cons_append]
    by_cases hd : d = k
    · subst hd
      have hdc : d ≠ c := fun e => hck e.symm
      simp [hdc]
    · rw [lookup_head_ne hd, lookup_head_ne hd]
      exact ih h

theorem setChild_append_new {c : Char} (x y : TrieNode) {cs : List (Char × TrieNode)}
    (h : List.lookup c cs = none) :
    setChild c x (cs ++ [(c, y)]) = cs ++ [(c, x)] := by
  induction cs with
  | nil => simp [setChild]
  | cons p rest ih =>
    obtain ⟨k, v⟩ := p
    have hck : c ≠ k := by
      intro e
      subst e
      simp at h
    rw [lookup_head_ne hck] at h
    rw [List.cons_append, List.cons_append]
    unfold setChild
    rw [if_neg (fun e => hck e.symm), ih h]

theorem setChild_setChild (c : Char) (x y : TrieNode) (cs : List (Char × TrieNode)) :
    setChild c x (setChild c y cs) = setChild c x cs := by
  induction cs with
  | nil => rfl
  | cons p rest ih =>
    obtain ⟨k, v⟩ := p
    by_cases hk : k = c
    · subst hk
      simp [setChild]
    · simp [setChild, hk, ih]

theorem keys_setChild (c : Char) (x : TrieNode) (cs : List (Char × TrieNode)) :
    (setChild c x cs).map Prod.fst = cs.map Prod.fst := by
  induction cs with
  | nil => rfl
  | cons p rest ih =>
    obtain ⟨k, v⟩ := p
    by_cases hk : k = c
    · subst hk
      simp [setChild]
    · simp [setChild, hk, ih]

end TrieNode

/-! ## Insertion and exact search -/

namespace OptimizedTrie

open TrieNode

theorem searchFrom_leaf (w : List Char) : searchFrom w (.mk false []) = false := by
  cases w <;> simp [searchFrom]

theorem searchFrom_insertFrom (v w : List Char) (t : TrieNode) :
    searchFrom w (insertFrom v t) = (decide (w = v) || searchFrom w t) := by
  induction v generalizing w t with
  | nil =>
    obtain ⟨e, cs⟩ := t
    cases w with
    | nil => simp [insertFrom, searchFrom]
    | cons d w => simp [insertFrom, searchFrom]
  | cons c v ih =>
    obtain ⟨e, cs⟩ := t
    cases hl : List.lookup c cs with
    | none =>
      cases w with
      | nil => simp [insertFrom, searchFrom, hl]
      | cons d w =>
        simp only [insertFrom, searchFrom, hl, lookup_append_new _ hl]
        by_cases hd : d = c
        · subst hd
          simp [hl, ih, searchFrom_leaf]
        · simp [hd]
    | some child =>
      cases w with
      | nil => simp [insertFrom, searchFrom, hl]
      | cons d w =>
        simp only [insertFrom, searchFrom, hl]
        by_cases hd : d = c
        · subst hd
          simp [lookup_setChild_self _ hl, hl, ih]
        · simp [lookup_setChild_ne hd, hd]

theorem search_insert (t : TrieNode) (v w : List Char) :
    search (insert t v) w = ((decide (w = v) && !w.isEmpty) || search t w) := by
  unfold search insert
  cases w with
  | nil => simp
  | cons d w =>
    cases v with
    | nil => simp
    | cons c v => simp [searchFrom_insertFrom]

theorem search_empty (w : List Char) : search empty w = false := by
  unfold search empty
  cases w with
  | nil => rfl
  | cons d w => simp [searchFrom]

theorem search_foldl_insert (ws : List (List Char)) (t : TrieNode) (w : List Char) :
    search (ws.foldl insert t) w = ((decide (w ∈ ws) && !w.isEmpty) || search t w) := by
  induction ws generalizing t with
  | nil => simp
  | cons v ws ih =>
    rw [List.foldl_cons, ih, search_insert]
    by_cases h1 : w = v
    · subst h1
      by_cases h2 : w ∈ ws <;> cases w.isEmpty <;> cases search t w <;> simp [h2]
    · by_cases h2 : w ∈ ws <;> simp [h1, h2]

theorem search_build (ws : List (List Char)) (w : List Char) :
    search (build ws) w = (decide (w ∈ ws) && !w.isEmpty) := by
  unfold build
  rw [search_foldl_insert, search_empty, Bool.or_false]

theorem insertFrom_idem (w : List Char) (t : TrieNode) :
    insertFrom w (insertFrom w t) = insertFrom w t := by
  induction w generalizing t with
  | nil =>
    obtain ⟨e, cs⟩ := t
    simp [insertFrom]
  | cons c w ih =>
    obtain ⟨e, cs⟩ := t
    cases hl : List.lookup c cs with
    | none =>
      simp only [insertFrom, hl]
      have : List.lookup c (cs ++ [(c, insertFrom w (.mk false []))]) =
          some (insertFrom w (.mk false [])) := by
        rw [lookup_append_new _ hl, if_pos rfl]
      simp only [this, ih, setChild_append_new _ _ hl]
    | some child =>
      simp only [insertFrom, hl]
      simp only [lookup_setChild_self _ hl, ih, setChild_setChild]

theorem insert_idem (t : TrieNode) (w : List Char) : insert (insert t w) w = insert t w := by
  unfold insert
  cases w with
  | nil => simp
  | cons c w => simp [insertFrom_idem]

theorem is_end_insertFrom_cons (c : Char) (w : List Char) (t : TrieNode) :
    (insertFrom (c :: w) t).is_end = t.is_end := by
  obtain ⟨e, cs⟩ := t
  cases hl : List.lookup c cs <;> simp [insertFrom, hl, TrieNode.is_end]

theorem is_end_insert (t : TrieNode) (w : List Char) : (insert t w).is_end = t.is_end := by
  unfold insert
  cases w with
  | nil => simp
  | cons c w => simp [is_end_insertFrom_cons]

theorem is_end_foldl_insert (ws : List (List Char)) (t : TrieNode) :
    (ws.foldl insert t).is_end = t.is_end := by
  induction ws generalizing t with
  | nil => rfl
  | cons v ws ih => rw [List.foldl_cons, ih, is_end_insert]

end OptimizedTrie

/-! ## The traversal -/

namespace OptimizedTrie

open TrieNode

mutual
theorem dfs_eq_collect : ∀ (t : TrieNode) (target current : List Char) (md : Int)
    (sugg : List (List Char)),
    dfs t target current md sugg =
      sugg ++ (collect t target current md).take (10 - sugg.length)
  | .mk e cs, target, current, md, sugg => by
    unfold dfs collect
    by_cases h10 : sugg.length ≥ 10
    · rw [if_pos h10]
      have : 10 - sugg.length = 0 := by omega
      simp [this]
    · rw [if_neg h10]
      simp only []
      generalize hown : (if (e && !current.isEmpty) = true then
          if editDistance current target ≤ md then [current] else []
        else ([] : List (List Char))) = own
      have hown' : (if (e && !current.isEmpty) = true then
          if editDistance current target ≤ md then sugg ++ [current] else sugg
        else sugg) = sugg ++ own := by
        rw [← hown]
        split
        · split <;> simp
        · simp
      have hlen : own.length ≤ 1 := by
        rw [← hown]
        split
        · split <;> simp
        · simp
      rw [hown']
      have htake : own.take (10 - sugg.length) = own :=
        List.take_of_length_le (by omega)
      by_cases hp : (current.length : Int) > pruneBound target md
      · rw [if_pos hp, if_pos hp, List.append_nil, htake]
      · rw [if_neg hp, if_neg hp, dfsChildren_eq_collect cs target current md (sugg ++ own),
          List.take_append_eq_append_take, htake, List.length_append, List.append_assoc]
        rw [Nat.sub_add_eq]
theorem dfsChildren_eq_collect : ∀ (cs : List (Char × TrieNode)) (target current : List Char)
    (md : Int) (sugg : List (List Char)),
    dfsChildren cs target current md sugg =
      sugg ++ (collectChildren cs target current md).take (10 - sugg.length)
  | [], target, current, md, sugg => by
    simp [dfsChildren, collectChildren]
  | (ch, child) :: rest, target, current, md, sugg => by
    unfold dfsChildren collectChildren
    rw [dfs_eq_collect child target (current ++ [ch]) md sugg,
      dfsChildren_eq_collect rest target current md, List.take_append_eq_append_take,
      List.append_assoc]
    congr 2
    simp only [List.length_append, List.length_take]
    congr 1
    omega
end

theorem getSuggestions_eq_collect (t : TrieNode) (target : List Char) (md : Int) :
    getSuggestions t target md = (collect t target [] md).take 10 := by
  unfold getSuggestions
  simp only [dfs_eq_collect, List.nil_append, List.length_nil, Nat.sub_zero]
  rw [if_neg (by simp)]

end OptimizedTrie

/-! ## Paths, well-formedness and reordering -/

namespace TrieNode

theorem mem_of_lookup {c : Char} {child : TrieNode} {cs : List (Char × TrieNode)}
    (h : List.lookup c cs = some child) : (c, child) ∈ cs := by
  induction cs with
  | nil => simp at h
  | cons p rest ih =>
    obtain ⟨k, v⟩ := p
    by_cases hk : c = k
    · subst hk
      simp at h
      simp [h]
    · rw [lookup_head_ne hk] at h
      exact List.mem_cons_of_mem _ (ih h)

theorem lookup_of_mem {c : Char} {child : TrieNode} {cs : List (Char × TrieNode)}
    (hnd : (cs.map Prod.fst).Nodup) (h : (c, child) ∈ cs) : List.lookup c cs = some child := by
  induction cs with
  | nil => simp at h
  | cons p rest ih =>
    obtain ⟨k, v⟩ := p
    simp only [List.map_cons, List.nodup_cons, List.mem_map, not_exists, not_and] at hnd
    rcases List.mem_cons.1 h with h1 | h1
    · cases h1
      simp
    · have hk : c ≠ k := by
        intro e
        subst e
        exact hnd.1 (c, child) h1 rfl
      rw [lookup_head_ne hk]
      exact ih hnd.2 h1

theorem not_mem_keys_of_lookup {c : Char} {cs : List (Char × TrieNode)}
    (h : List.lookup c cs = none) : c ∉ cs.map Prod.fst := by
  induction cs with
  | nil => simp
  | cons p rest ih =>
    obtain ⟨k, v⟩ := p
    have hk : c ≠ k := by
      intro e
      subst e
      simp at h
    rw [lookup_head_ne hk] at h
    simp only [List.map_cons, List.mem_cons, not_or]
    exact ⟨hk, ih h⟩

theorem mem_setChild {c : Char} {x : TrieNode} {cs : List (Char × TrieNode)}
    {p : Char × TrieNode} (h : p ∈ setChild c x cs) : p ∈ cs ∨ p.2 = x := by
  induction cs with
  | nil => simp [setChild] at h
  | cons q rest ih =>
    obtain ⟨k, v⟩ := q
    unfold setChild at h
    by_cases hk : k = c
    · rw [if_pos hk] at h
      rcases List.mem_cons.1 h with h | h
      · right; rw [h]
      · left; exact List.mem_cons_of_mem _ h
    · rw [if_neg hk] at h
      rcases List.mem_cons.1 h with h | h
      · left; rw [h]; exact List.mem_cons_self _ _
      · rcases ih h with h | h
        · left; exact List.mem_cons_of_mem _ h
        · right; exact h

theorem wfChildren_iff (cs : List (Char × TrieNode)) :
    WFChildren cs ↔ ∀ p ∈ cs, WF p.2 := by
  induction cs with
  | nil => simp [WFChildren]
  | cons q rest ih =>
    obtain ⟨k, v⟩ := q
    simp [WFChildren, ih]

theorem wf_mk (e : Bool) (cs : List (Char × TrieNode)) :
    WF (.mk e cs) ↔ (cs.map Prod.fst).Nodup ∧ ∀ p ∈ cs, WF p.2 := by
  rw [← wfChildren_iff]
  simp [WF]

theorem searchFrom_hasPath (w : List Char) (t : TrieNode)
    (h : OptimizedTrie.searchFrom w t = true) : hasPath w t := by
  induction w generalizing t with
  | nil =>
    obtain ⟨e, cs⟩ := t
    simpa [OptimizedTrie.searchFrom, hasPath] using h
  | cons c w ih =>
    obtain ⟨e, cs⟩ := t
    simp only [OptimizedTrie.searchFrom] at h
    cases hl : List.lookup c cs with
    | none => simp [hl] at h
    | some child =>
      simp only [hl] at h
      exact ⟨child, mem_of_lookup hl, ih child h⟩

theorem hasPath_searchFrom (w : List Char) (t : TrieNode) (hwf : WF t)
    (h : hasPath w t) : OptimizedTrie.searchFrom w t = true := by
  induction w generalizing t with
  | nil =>
    obtain ⟨e, cs⟩ := t
    simpa [OptimizedTrie.searchFrom, hasPath] using h
  | cons c w ih =>
    obtain ⟨e, cs⟩ := t
    obtain ⟨child, hmem, hp⟩ := h
    rw [wf_mk] at hwf
    simp only [OptimizedTrie.searchFrom, lookup_of_mem hwf.1 hmem]
    exact ih child (hwf.2 _ hmem) hp

theorem wf_leaf (e : Bool) : WF (.mk e []) := by
  rw [wf_mk]
  simp

theorem wf_insertFrom (w : List Char) (t : TrieNode) (hwf : WF t) :
    WF (OptimizedTrie.insertFrom w t) := by
  induction w generalizing t with
  | nil =>
    obtain ⟨e, cs⟩ := t
    rw [wf_mk] at hwf
    simp only [OptimizedTrie.insertFrom]
    rw [wf_mk]
    exact hwf
  | cons c w ih =>
    obtain ⟨e, cs⟩ := t
    rw [wf_mk] at hwf
    cases hl : List.lookup c cs with
    | none =>
      simp only [OptimizedTrie.insertFrom, hl]
      rw [wf_mk]
      constructor
      · rw [List.map_append, List.nodup_append]
        refine ⟨hwf.1, by simp, ?_⟩
        intro a ha hb
        simp only [List.map_cons, List.map_nil, List.mem_singleton] at hb
        subst hb
        exact not_mem_keys_of_lookup hl ha
      · intro p hp
        rcases List.mem_append.1 hp with hp | hp
        · exact hwf.2 p hp
        · simp only [List.mem_singleton] at hp
          subst hp
          exact ih _ (wf_leaf false)
    | some child =>
      simp only [OptimizedTrie.insertFrom, hl]
      rw [wf_mk, keys_setChild]
      refine ⟨hwf.1, ?_⟩
      intro p hp
      rcases mem_setChild hp with hp | hp
      · exact hwf.2 p hp
      · rw [hp]
        exact ih child (hwf.2 _ (mem_of_lookup hl))

theorem wf_insert (t : TrieNode) (w : List Char) (hwf : WF t) :
    WF (OptimizedTrie.insert t w) := by
  unfold OptimizedTrie.insert
  split
  · exact hwf
  · exact wf_insertFrom w t hwf

theorem wf_foldl_insert (ws : List (List Char)) (t : TrieNode) (hwf : WF t) :
    WF (ws.foldl OptimizedTrie.insert t) := by
  induction ws generalizing t with
  | nil => exact hwf
  | cons v ws ih => exact ih _ (wf_insert t v hwf)

theorem wf_build (ws : List (List Char)) : WF (OptimizedTrie.build ws) :=
  wf_foldl_insert ws _ (wf_leaf false)

mutual
theorem sameUpToOrder_refl : ∀ t : TrieNode, SameUpToOrder t t
  | .mk e cs => by
    unfold SameUpToOrder
    exact ⟨rfl, sameChildren_refl cs⟩
theorem sameChildren_refl : ∀ cs : List (Char × TrieNode), SameChildren cs cs
  | [] => by simp [SameChildren]
  | (c, t) :: rest => by
    unfold SameChildren
    exact ⟨t, [], rest, rfl, sameUpToOrder_refl t, sameChildren_refl rest⟩
end

theorem sameChildren_mem (cs : List (Char × TrieNode)) :
    ∀ ds, SameChildren cs ds →
      (∀ c t, (c, t) ∈ cs → ∃ u, (c, u) ∈ ds ∧ SameUpToOrder t u) ∧
      (∀ c u, (c, u) ∈ ds → ∃ t, (c, t) ∈ cs ∧ SameUpToOrder t u) ∧
      (ds.map Prod.fst).Perm (cs.map Prod.fst) := by
  induction cs with
  | nil =>
    intro ds h
    simp only [SameChildren] at h
    subst h
    simp
  | cons p rest ih =>
    obtain ⟨k, v⟩ := p
    intro ds h
    simp only [SameChildren] at h
    obtain ⟨u, l, r, hds, hsame, hrest⟩ := h
    obtain ⟨h1, h2, h3⟩ := ih _ hrest
    subst hds
    refine ⟨?_, ?_, ?_⟩
    · intro c t hmem
      rcases List.mem_cons.1 hmem with hmem | hmem
      · cases hmem
        exact ⟨u, by simp, hsame⟩
      · obtain ⟨u', hu', hs'⟩ := h1 c t hmem
        refine ⟨u', ?_, hs'⟩
        rcases List.mem_append.1 hu' with hu' | hu'
        · exact List.mem_append_left _ hu'
        · exact List.mem_append_right _ (List.mem_cons_of_mem _ hu')
    · intro c u' hmem
      rcases List.mem_append.1 hmem with hmem | hmem
      · obtain ⟨t, ht, hs'⟩ := h2 c u' (List.mem_append_left _ hmem)
        exact ⟨t, List.mem_cons_of_mem _ ht, hs'⟩
      · rcases List.mem_cons.1 hmem with hmem | hmem
        · cases hmem
          exact ⟨v, List.mem_cons_self _ _, hsame⟩
        · obtain ⟨t, ht, hs'⟩ := h2 c u' (List.mem_append_right _ hmem)
          exact ⟨t, List.mem_cons_of_mem _ ht, hs'⟩
    · simp only [List.map_append, List.map_cons]
      refine List.Perm.trans List.perm_middle ?_
      refine List.Perm.cons _ ?_
      simpa using h3

theorem sameUpToOrder_hasPath (w : List Char) (t u : TrieNode) (h : SameUpToOrder t u) :
    hasPath w t ↔ hasPath w u := by
  induction w generalizing t u with
  | nil =>
    obtain ⟨e, cs⟩ := t
    obtain ⟨e', ds⟩ := u
    simp only [SameUpToOrder, TrieNode.is_end] at h
    simp [hasPath, h.1]
  | cons c w ih =>
    obtain ⟨e, cs⟩ := t
    obtain ⟨e', ds⟩ := u
    simp only [SameUpToOrder, TrieNode.children] at h
    obtain ⟨h1, h2, _⟩ := sameChildren_mem cs ds h.2
    simp only [hasPath]
    constructor
    · rintro ⟨child, hmem, hp⟩
      obtain ⟨u', hu', hs'⟩ := h1 c child hmem
      exact ⟨u', hu', (ih child u' hs').1 hp⟩
    · rintro ⟨child, hmem, hp⟩
      obtain ⟨t', ht', hs'⟩ := h2 c child hmem
      exact ⟨t', ht', (ih t' child hs').2 hp⟩

mutual
theorem sameUpToOrder_wf : ∀ (t u : TrieNode), WF t → SameUpToOrder t u → WF u
  | .mk e cs, .mk e' ds, hwf, h => by
    simp only [SameUpToOrder, TrieNode.children] at h
    have hwf' : (cs.map Prod.fst).Nodup ∧ WFChildren cs := by simpa [WF] using hwf
    obtain ⟨_, _, hperm⟩ := sameChildren_mem cs ds h.2
    have : (ds.map Prod.fst).Nodup ∧ WFChildren ds :=
      ⟨(List.Perm.nodup_iff hperm).2 hwf'.1, sameChildren_wf cs ds hwf'.2 h.2⟩
    simpa [WF] using this
theorem sameChildren_wf : ∀ (cs ds : List (Char × TrieNode)),
    WFChildren cs → SameChildren cs ds → WFChildren ds
  | [], ds, _, h => by
    simp only [SameChildren] at h
    subst h
    simp [WFChildren]
  | (c, t) :: rest, ds, hwf, h => by
    simp only [SameChildren] at h
    obtain ⟨u, l, r, hds, hsame, hrest⟩ := h
    have hwf' : WF t ∧ WFChildren rest := by simpa [WFChildren] using hwf
    have hu := sameUpToOrder_wf t u hwf'.1 hsame
    have hlr := sameChildren_wf rest (l ++ r) hwf'.2 hrest
    subst hds
    rw [wfChildren_iff] at hlr ⊢
    intro p hp
    rcases List.mem_append.1 hp with hp | hp
    · exact hlr p (List.mem_append_left _ hp)
    · rcases List.mem_cons.1 hp with hp | hp
      · rw [hp]; exact hu
      · exact hlr p (List.mem_append_right _ hp)
end

end TrieNode

/-! ## What the traversal collects -/

namespace OptimizedTrie

open TrieNode

mutual
theorem collect_sound : ∀ (t : TrieNode) (target current : List Char) (md : Int)
    (w : List Char), w ∈ collect t target current md →
      ∃ s, w = current ++ s ∧ hasPath s t ∧ w ≠ [] ∧ editDistance w target ≤ md
  | .mk e cs, target, current, md, w, h => by
    unfold collect at h
    rcases List.mem_append.1 h with h | h
    · split at h
      · rename_i he
        split at h
        · rename_i hd
          simp only [List.mem_singleton] at h
          subst h
          simp only [Bool.and_eq_true, Bool.not_eq_true', List.isEmpty_eq_false_iff_exists_mem]
            at he
          refine ⟨[], by simp, by simpa [hasPath] using he.1, ?_, hd⟩
          obtain ⟨x, hx⟩ := he.2
          exact List.ne_nil_of_mem hx
        · simp at h
      · simp at h
    · split at h
      · simp at h
      · obtain ⟨c, child, s, hmem, hw, hp, hne, hd⟩ :=
          collectChildren_sound cs target current md w h
        exact ⟨c :: s, hw, ⟨child, hmem, hp⟩, hne, hd⟩
theorem collectChildren_sound : ∀ (cs : List (Char × TrieNode)) (target current : List Char)
    (md : Int) (w : List Char), w ∈ collectChildren cs target current md →
      ∃ c child s, (c, child) ∈ cs ∧ w = current ++ c :: s ∧ hasPath s child ∧ w ≠ [] ∧
        editDistance w target ≤ md
  | [], target, current, md, w, h => by
    simp [collectChildren] at h
  | (ch, child) :: rest, target, current, md, w, h => by
    unfold collectChildren at h
    rcases List.mem_append.1 h with h | h
    · obtain ⟨s, hw, hp, hne, hd⟩ := collect_sound child target (current ++ [ch]) md w h
      exact ⟨ch, child, s, List.mem_cons_self _ _, by simpa using hw, hp, hne, hd⟩
    · obtain ⟨c, child', s, hmem, hw, hp, hne, hd⟩ :=
        collectChildren_sound rest target current md w h
      exact ⟨c, child', s, List.mem_cons_of_mem _ hmem, hw, hp, hne, hd⟩
end

theorem mem_collectChildren {c : Char} {child : TrieNode} {cs : List (Char × TrieNode)}
    (hmem : (c, child) ∈ cs) (target current : List Char) (md : Int) {w : List Char}
    (hw : w ∈ collect child target (current ++ [c]) md) :
    w ∈ collectChildren cs target current md := by
  induction cs with
  | nil => simp at hmem
  | cons p rest ih =>
    obtain ⟨k, v⟩ := p
    unfold collectChildren
    rcases List.mem_cons.1 hmem with h1 | h1
    · cases h1
      exact List.mem_append_left _ hw
    · exact List.mem_append_right _ (ih h1)

theorem collect_complete (target : List Char) (md : Int) (s : List Char) :
    ∀ (t : TrieNode) (current : List Char), hasPath s t → current ++ s ≠ [] →
      editDistance (current ++ s) target ≤ md →
      ((current ++ s).length : Int) ≤ pruneBound target md + 1 →
      current ++ s ∈ collect t target current md := by
  induction s with
  | nil =>
    intro t current hp hne hd _
    obtain ⟨e, cs⟩ := t
    simp only [hasPath] at hp
    simp only [List.append_nil] at hne hd ⊢
    unfold collect
    apply List.mem_append_left
    have : (e && !current.isEmpty) = true := by
      cases current with
      | nil => exact absurd rfl hne
      | cons a l => simp [hp]
    rw [if_pos this, if_pos hd]
    exact List.mem_singleton_self _
  | cons c s ih =>
    intro t current hp hne hd hlen
    obtain ⟨e, cs⟩ := t
    obtain ⟨child, hmem, hp'⟩ := hp
    unfold collect
    apply List.mem_append_right
    have hnp : ¬ ((current.length : Int) > pruneBound target md) := by
      simp only [List.length_append, List.length_cons] at hlen
      push_cast at hlen
      omega
    rw [if_neg hnp]
    have e1 : current ++ c :: s = (current ++ [c]) ++ s := by simp
    apply mem_collectChildren hmem
    rw [e1]
    apply ih child (current ++ [c]) hp'
    · simp
    · rw [← e1]; exact hd
    · rw [← e1]; exact hlen

mutual
theorem collect_nodup : ∀ (t : TrieNode) (target current : List Char) (md : Int),
    WF t → (collect t target current md).Nodup
  | .mk e cs, target, current, md, hwf => by
    have hwf' : (cs.map Prod.fst).Nodup ∧ WFChildren cs := by simpa [WF] using hwf
    unfold collect
    rw [List.nodup_append]
    refine ⟨?_, ?_, ?_⟩
    · split
      · split <;> simp
      · simp
    · split
      · simp
      · exact collectChildren_nodup cs target current md hwf'.1 hwf'.2
    · intro w h1 h2
      split at h2
      · simp at h2
      · obtain ⟨c, child, s, _, hw, _⟩ := collectChildren_sound cs target current md w h2
        have hw1 : w = current := by
          split at h1
          · split at h1
            · simpa using h1
            · simp at h1
          · simp at h1
        rw [hw1] at hw
        have := congrArg List.length hw
        simp at this
theorem collectChildren_nodup : ∀ (cs : List (Char × TrieNode)) (target current : List Char)
    (md : Int), (cs.map Prod.fst).Nodup → WFChildren cs →
      (collectChildren cs target current md).Nodup
  | [], target, current, md, _, _ => by
    simp [collectChildren]
  | (ch, child) :: rest, target, current, md, hnd, hwf => by
    have hwf' : WF child ∧ WFChildren rest := by simpa [WFChildren] using hwf
    simp only [List.map_cons, List.nodup_cons, List.mem_map, not_exists, not_and] at hnd
    unfold collectChildren
    rw [List.nodup_append]
    refine ⟨collect_nodup child target (current ++ [ch]) md hwf'.1,
      collectChildren_nodup rest target current md hnd.2 hwf'.2, ?_⟩
    intro w h1 h2
    obtain ⟨s, hw, _⟩ := collect_sound child target (current ++ [ch]) md w h1
    obtain ⟨c, child', s', hmem, hw', _⟩ := collectChildren_sound rest target current md w h2
    rw [hw] at hw'
    simp only [List.append_assoc, List.singleton_append, List.append_cancel_left_eq,
      List.cons.injEq] at hw'
    exact hnd.1 (c, child') hmem hw'.1.symm
end

end OptimizedTrie

/-! ## The normaliser -/

theorem isalpha_toNat (c : Char) : isalpha c.toNat = c.isAlpha := by
  have h1 : ∀ k : UInt32, (k ≤ c.val) ↔ k.toBitVec.toNat ≤ c.toNat := fun k => by
    rw [UInt32.le_def, BitVec.le_def]; rfl
  have h2 : ∀ k : UInt32, (c.val ≤ k) ↔ c.toNat ≤ k.toBitVec.toNat := fun k => by
    rw [UInt32.le_def, BitVec.le_def]; rfl
  have e65 : (65 : UInt32).toBitVec.toNat = 65 := rfl
  have e90 : (90 : UInt32).toBitVec.toNat = 90 := rfl
  have e97 : (97 : UInt32).toBitVec.toNat = 97 := rfl
  have e122 : (122 : UInt32).toBitVec.toNat = 122 := rfl
  simp only [isalpha, Char.isAlpha, Char.isUpper, Char.isLower, ge_iff_le, h1, h2, e65, e90, e97,
    e122]

theorem tolower_toNat (c : Char) : Char.ofNat (tolower c.toNat) = c.toLower := by
  unfold tolower Char.toLower
  simp only [ge_iff_le]
  split
  · rfl
  · exact Char.ofNat_toNat c

namespace FastNormalizer

set_option maxRecDepth 100000 in
theorem table_eq : (ensureInit initial).lookup_table = (List.range 256).map isalpha := by
  decide

theorem table_getD (n : Nat) :
    (ensureInit initial).lookup_table.getD n false = isalpha n := by
  rw [table_eq]
  by_cases h : n < 256
  · simp [List.getD_eq_getElem?_getD, List.getElem?_map, List.getElem?_range h]
  · have : isalpha n = false := by
      unfold isalpha
      simp only [Bool.or_eq_false_iff, Bool.and_eq_false_iff, decide_eq_false_iff_not]
      omega
    rw [this, List.getD_eq_getElem?_getD, List.getElem?_eq_none (by simp; omega)]
    rfl

theorem normalize_snd (st : FastNormalizer) (s : List Char) :
    (normalize st s).2 = ensureInit st := rfl

theorem ensureInit_idem (st : FastNormalizer) : ensureInit (ensureInit st) = ensureInit st := by
  obtain ⟨t, i⟩ := st
  cases i <;> simp [ensureInit]

theorem after_cases (calls : List (List Char)) :
    after calls = initial ∨ after calls = ensureInit initial := by
  unfold after
  induction calls using List.reverseRecOn with
  | nil => left; rfl
  | append_singleton calls s ih =>
    right
    rw [List.foldl_append]
    simp only [List.foldl_cons, List.foldl_nil]
    rw [normalize_snd]
    rcases ih with ih | ih
    · rw [ih]
    · rw [ih, ensureInit_idem]

theorem ensureInit_after (calls : List (List Char)) :
    ensureInit (after calls) = ensureInit initial := by
  rcases after_cases calls with h | h
  · rw [h]
  · rw [h, ensureInit_idem]

theorem foldl_filter_map (p : Char → Bool) (f : Char → Char) (s acc : List Char) :
    s.foldl (fun result c => if p c then result ++ [f c] else result) acc =
      acc ++ (s.filter p).map f := by
  induction s generalizing acc with
  | nil => simp
  | cons c s ih =>
    rw [List.foldl_cons, ih]
    by_cases h : p c <;> simp [h]

theorem normalize_after (calls : List (List Char)) (s : List Char) :
    (normalize (after calls) s).1 = (s.filter Char.isAlpha).map Char.toLower := by
  unfold normalize
  simp only [ensureInit_after, table_getD, isalpha_toNat, tolower_toNat]
  rw [foldl_filter_map]
  simp

end FastNormalizer

/-! ## The dictionary manager -/

namespace DictionaryManager

theorem dictionary_foldl (ws : List (List Char)) (dm : DictionaryManager) :
    (ws.foldl insertWord dm).dictionary = ws.foldl OptimizedTrie.insert dm.dictionary := by
  induction ws generalizing dm with
  | nil => rfl
  | cons v ws ih => rw [List.foldl_cons, ih]; rfl

theorem dictionary_insertWords (ws : List (List Char)) :
    (insertWords ws).dictionary = OptimizedTrie.build ws :=
  dictionary_foldl ws initial

theorem mem_setInsert (s : List (List Char)) (v w : List Char) :
    w ∈ setInsert s v ↔ w = v ∨ w ∈ s := by
  unfold setInsert
  split
  · rename_i h
    constructor
    · exact fun hw => Or.inr hw
    · rintro (hw | hw)
      · rw [hw]; exact h
      · exact hw
  · simp [or_comm]

theorem mem_word_set_foldl (ws : List (List Char)) (dm : DictionaryManager) (w : List Char) :
    w ∈ (ws.foldl insertWord dm).word_set ↔ w ∈ ws ∨ w ∈ dm.word_set := by
  induction ws generalizing dm with
  | nil => simp
  | cons v ws ih =>
    rw [List.foldl_cons, ih]
    simp only [insertWord, mem_setInsert, List.mem_cons]
    tauto

theorem isCorrect_iff (dm : DictionaryManager) (w : List Char) :
    isCorrect dm w = true ↔ w ∈ dm.word_set := by
  unfold isCorrect setCount
  split <;> simp [*]

theorem isCorrect_insertWords (ws : List (List Char)) (w : List Char) :
    isCorrect (insertWords ws) w = true ↔ w ∈ ws := by
  rw [isCorrect_iff]
  unfold insertWords
  rw [mem_word_set_foldl]
  simp [initial]

end DictionaryManager

/-! ## Suggestions -/

namespace OptimizedTrie

open TrieNode

theorem search_eq_searchFrom (t : TrieNode) {w : List Char} (h : w ≠ []) :
    search t w = searchFrom w t := by
  unfold search
  cases w with
  | nil => exact absurd rfl h
  | cons c w => rfl

theorem mem_getSuggestions_sound {t : TrieNode} {target w : List Char} {md : Int}
    (h : w ∈ getSuggestions t target md) :
    hasPath w t ∧ w ≠ [] ∧ editDistance w target ≤ md := by
  rw [getSuggestions_eq_collect] at h
  obtain ⟨s, hw, hp, hne, hd⟩ := collect_sound t target [] md w (List.mem_of_mem_take h)
  simp only [List.nil_append] at hw
  subst hw
  exact ⟨hp, hne, hd⟩

theorem editDistance_le_iff (w target : List Char) {md : Int} (hmd : md ≤ 2)
    (hw : w.length < 2147483647) (ht : target.length < 2147483647) :
    editDistance w target ≤ md ↔ (levDist w target : Int) ≤ md := by
  rw [editDistance_eq w target hw ht]
  have h := length_le_levDist w target
  split
  · rename_i hgap
    constructor
    · intro h3
      omega
    · intro hl
      rw [gt_iff_lt, lt_abs] at hgap
      omega
  · exact Iff.rfl

theorem length_le_of_editDistance_le {w target : List Char} {md : Int} (hmd : md ≤ 2)
    (hw : w.length < 2147483647) (ht : target.length < 2147483647)
    (h : editDistance w target ≤ md) :
    (w.length : Int) ≤ pruneBound target md + 1 := by
  have hl := (editDistance_le_iff w target hmd hw ht).1 h
  have hlen := length_le_levDist w target
  unfold pruneBound
  rw [Int.emod_eq_of_lt (by omega) (by omega)]
  omega

theorem mem_getSuggestions_of_few {t : TrieNode} {target w : List Char} {md : Int}
    (hwf : WF t) (hp : hasPath w t) (hne : w ≠ []) (hd : editDistance w target ≤ md)
    (hlen : (w.length : Int) ≤ pruneBound target md + 1)
    (cands : List (List Char)) (hsub : ∀ x ∈ collect t target [] md, x ∈ cands)
    (hfew : cands.length ≤ 10) :
    w ∈ getSuggestions t target md := by
  rw [getSuggestions_eq_collect]
  have hnd := collect_nodup t target [] md hwf
  have hle : (collect t target [] md).length ≤ cands.length :=
    (hnd.subperm hsub).length_le
  rw [List.take_of_length_le (by omega)]
  have := collect_complete target md w t [] hp (by simpa using hne) (by simpa using hd)
    (by simpa using hlen)
  simpa using this

theorem hasPath_build_iff (ws : List (List Char)) {w : List Char} (hne : w ≠ []) :
    hasPath w (build ws) ↔ w ∈ ws := by
  constructor
  · intro hp
    have h := hasPath_searchFrom w _ (wf_build ws) hp
    rw [← search_eq_searchFrom _ hne, search_build] at h
    simp only [Bool.and_eq_true, decide_eq_true_eq] at h
    exact h.1
  · intro hmem
    apply searchFrom_hasPath
    rw [← search_eq_searchFrom _ hne, search_build]
    cases w with
    | nil => exact absurd rfl hne
    | cons c w => simp [hmem]

end OptimizedTrie

/-! ## Symmetry of the distance -/

theorem script_symm {a b : List Char} {n : Nat} (h : EditScript a b n) : EditScript b a n := by
  induction h with
  | nil => exact EditScript.nil
  | delete x _ ih => exact EditScript.insert x ih
  | insert y _ ih => exact EditScript.delete y ih
  | subst x y _ ih =>
    refine (EditScript.subst y x ih).cast ?_
    by_cases h : x = y
    · simp [h]
    · have h' : ¬ y = x := fun e => h e.symm
      simp [h, h']

theorem levDist_comm (a b : List Char) : levDist a b = levDist b a :=
  le_antisymm (levDist_le_of_script (script_symm (script_levDist b a)))
    (levDist_le_of_script (script_symm (script_levDist a b)))

namespace OptimizedTrie

open TrieNode

theorem editDistance_comm (a b : List Char) (ha : a.length < 2147483647)
    (hb : b.length < 2147483647) : editDistance a b = editDistance b a := by
  rw [editDistance_eq a b ha hb, editDistance_eq b a hb ha, levDist_comm a b, abs_sub_comm]

/-! ## The traversal without the early exit, and without the pruning test -/

mutual
theorem dfsUncapped_eq_collect : ∀ (t : TrieNode) (target current : List Char) (md : Int)
    (sugg : List (List Char)),
    dfsUncapped t target current md sugg = sugg ++ collect t target current md
  | .mk e cs, target, current, md, sugg => by
    unfold dfsUncapped collect
    simp only []
    by_cases hp : (current.length : Int) > pruneBound target md
    · rw [if_pos hp, if_pos hp, List.append_nil]
      split
      · split <;> simp
      · simp
    · rw [if_neg hp, if_neg hp, dfsChildrenUncapped_eq_collect cs target current md]
      split
      · split <;> simp
      · simp
theorem dfsChildrenUncapped_eq_collect : ∀ (cs : List (Char × TrieNode))
    (target current : List Char) (md : Int) (sugg : List (List Char)),
    dfsChildrenUncapped cs target current md sugg =
      sugg ++ collectChildren cs target current md
  | [], target, current, md, sugg => by
    simp [dfsChildrenUncapped, collectChildren]
  | (ch, child) :: rest, target, current, md, sugg => by
    unfold dfsChildrenUncapped collectChildren
    rw [dfsUncapped_eq_collect child target (current ++ [ch]) md sugg,
      dfsChildrenUncapped_eq_collect rest target current md, List.append_assoc]
end

theorem length_le_of_editDistance_le_two {w target : List Char} {md : Int} (hmd : md ≤ 2)
    (hw : w.length < 2147483647) (ht : target.length < 2147483647)
    (h : editDistance w target ≤ md) : (w.length : Int) ≤ (target.length : Int) + md := by
  have hl := (editDistance_le_iff w target hmd hw ht).1 h
  have hlen := length_le_levDist w target
  omega

mutual
theorem dfsUnpruned_far : ∀ (t : TrieNode) (target current : List Char) (md : Int)
    (sugg : List (List Char)), md ≤ 2 → target.length < 2147483647 →
    current.length + t.height < 2147483647 →
    (target.length : Int) + md < (current.length : Int) →
    dfsUnpruned t target current md sugg = sugg
  | .mk e cs, target, current, md, sugg, hmd, ht, hh, hfar => by
    simp only [TrieNode.height] at hh
    unfold dfsUnpruned
    split
    · rfl
    · have hno : ¬ (editDistance current target ≤ md) := by
        intro h
        have := length_le_of_editDistance_le_two hmd (by omega) ht h
        omega
      simp only [hno, if_false, ite_self]
      exact dfsChildrenUnpruned_far cs target current md sugg hmd ht hh (by omega)
theorem dfsChildrenUnpruned_far : ∀ (cs : List (Char × TrieNode)) (target current : List Char)
    (md : Int) (sugg : List (List Char)), md ≤ 2 → target.length < 2147483647 →
    current.length + TrieNode.heightChildren cs < 2147483647 →
    (target.length : Int) + md < (current.length : Int) + 1 →
    dfsChildrenUnpruned cs target current md sugg = sugg
  | [], target, current, md, sugg, _, _, _, _ => by
    simp [dfsChildrenUnpruned]
  | (ch, child) :: rest, target, current, md, sugg, hmd, ht, hh, hfar => by
    simp only [TrieNode.heightChildren] at hh
    unfold dfsChildrenUnpruned
    rw [dfsUnpruned_far child target (current ++ [ch]) md sugg hmd ht
      (by simp only [List.length_append, List.length_singleton]; omega)
      (by simp only [List.length_append, List.length_singleton]; push_cast; omega)]
    exact dfsChildrenUnpruned_far rest target current md sugg hmd ht (by omega) hfar
end

theorem lt_of_pruned {target current : List Char} {md : Int}
    (hrange : (target.length : Int) + md < 2 ^ 64)
    (hp : (current.length : Int) > pruneBound target md) :
    (target.length : Int) + md < (current.length : Int) := by
  unfold pruneBound at hp
  by_cases h0 : 0 ≤ (target.length : Int) + md
  · rw [Int.emod_eq_of_lt h0 hrange] at hp
    omega
  · omega

mutual
theorem dfs_eq_dfsUnpruned : ∀ (t : TrieNode) (target current : List Char) (md : Int)
    (sugg : List (List Char)), md ≤ 2 → target.length < 2147483647 →
    current.length + t.height < 2147483647 →
    dfs t target current md sugg = dfsUnpruned t target current md sugg
  | .mk e cs, target, current, md, sugg, hmd, ht, hh => by
    simp only [TrieNode.height] at hh
    unfold dfs dfsUnpruned
    split
    · rfl
    · simp only []
      by_cases hp : (current.length : Int) > pruneBound target md
      · rw [if_pos hp]
        rw [dfsChildrenUnpruned_far cs target current md _ hmd ht hh
          (by have := lt_of_pruned (show (target.length : Int) + md < 2 ^ 64 by omega) hp
              omega)]
      · rw [if_neg hp]
        exact dfsChildren_eq_dfsChildrenUnpruned cs target current md _ hmd ht hh
theorem dfsChildren_eq_dfsChildrenUnpruned : ∀ (cs : List (Char × TrieNode))
    (target current : List Char) (md : Int) (sugg : List (List Char)), md ≤ 2 →
    target.length < 2147483647 →
    current.length + TrieNode.heightChildren cs < 2147483647 →
    dfsChildren cs target current md sugg = dfsChildrenUnpruned cs target current md sugg
  | [], target, current, md, sugg, _, _, _ => by
    simp [dfsChildren, dfsChildrenUnpruned]
  | (ch, child) :: rest, target, current, md, sugg, hmd, ht, hh => by
    simp only [TrieNode.heightChildren] at hh
    unfold dfsChildren dfsChildrenUnpruned
    rw [dfs_eq_dfsUnpruned child target (current ++ [ch]) md sugg hmd ht
      (by simp only [List.length_append, List.length_singleton]; omega)]
    exact dfsChildren_eq_dfsChildrenUnpruned rest target current md _ hmd ht (by omega)
end

theorem getSuggestions_nodup {t : TrieNode} (hwf : WF t) (target : List Char) (md : Int) :
    (getSuggestions t target md).Nodup := by
  rw [getSuggestions_eq_collect]
  exact (collect_nodup t target [] md hwf).sublist (List.take_sublist _ _)

end OptimizedTrie

/-! ## No access out of bounds -/

namespace OptimizedTrie

theorem getElem?_of_shape {n : Nat} {dp : List (List Int)} (h : DpShape n dp) {r : Nat}
    (hr : r < 2) : ∃ row, dp[r]? = some row ∧ dp.getD r [] = row ∧ row.length = n + 1 := by
  obtain ⟨h2, hlen⟩ := h
  have hr' : r < dp.length := by omega
  refine ⟨dp[r], List.getElem?_eq_getElem hr', ?_, ?_⟩
  · simp [List.getD_eq_getElem?_getD, List.getElem?_eq_getElem hr']
  · have := hlen r hr
    simpa [List.getD_eq_getElem?_getD, List.getElem?_eq_getElem hr'] using this

theorem dpGetChecked_eq {n : Nat} {dp : List (List Int)} (h : DpShape n dp) {r j : Nat}
    (hr : r < 2) (hj : j ≤ n) : dpGetChecked dp r j = some (dpGet dp r j) := by
  obtain ⟨row, h1, h2, h3⟩ := getElem?_of_shape h hr
  unfold dpGetChecked dpGet
  rw [h1, h2]
  simp only []
  have hj' : j < row.length := by omega
  rw [List.getElem?_eq_getElem hj', List.getD_eq_getElem?_getD, List.getElem?_eq_getElem hj']
  rfl

theorem dpSetChecked_eq {n : Nat} {dp : List (List Int)} (h : DpShape n dp) {r j : Nat}
    (hr : r < 2) (hj : j ≤ n) (v : Int) : dpSetChecked dp r j v = some (dpSet dp r j v) := by
  obtain ⟨row, h1, h2, h3⟩ := getElem?_of_shape h hr
  unfold dpSetChecked dpSet
  rw [h1, h2]
  simp only []
  rw [if_pos (by omega)]

theorem dpShape_editCell {n : Nat} {dp : List (List Int)} (h : DpShape n dp)
    (s1 s2 : List Char) (i j : Nat) : DpShape n (editCell s1 s2 i dp j) := by
  unfold editCell
  simp only []
  split <;> exact dpShape_set h _ _ _

theorem editCellChecked_eq {dp : List (List Int)} (s1 s2 : List Char)
    (h : DpShape s2.length dp) {i j : Nat} (hi1 : 1 ≤ i) (hi : i ≤ s1.length) (hj1 : 1 ≤ j)
    (hj : j ≤ s2.length) : editCellChecked s1 s2 i dp j = some (editCell s1 s2 i dp j) := by
  have hlt : i % 2 < 2 := by omega
  have hlt' : 1 - i % 2 < 2 := by omega
  have ha : i - 1 < s1.length := by omega
  have hb : j - 1 < s2.length := by omega
  unfold editCellChecked editCell
  simp only [List.getElem?_eq_getElem ha, List.getElem?_eq_getElem hb, Option.some.injEq,
    dpGetChecked_eq h hlt' (show j - 1 ≤ s2.length by omega), dpGetChecked_eq h hlt' hj,
    dpGetChecked_eq h hlt (show j - 1 ≤ s2.length by omega)]
  split <;> exact dpSetChecked_eq h hlt hj _

theorem foldlM_eq_foldl {σ α : Type} (inv : σ → Prop) (ok : α → Prop) (f : σ → α → Option σ)
    (g : σ → α → σ) (hstep : ∀ s x, inv s → ok x → f s x = some (g s x) ∧ inv (g s x))
    (l : List α) (hl : ∀ x ∈ l, ok x) (s : σ) (hs : inv s) :
    l.foldlM f s = some (l.foldl g s) ∧ inv (l.foldl g s) := by
  induction l generalizing s with
  | nil => exact ⟨rfl, hs⟩
  | cons x l ih =>
    obtain ⟨h1, h2⟩ := hstep s x hs (hl x (List.mem_cons_self _ _))
    rw [List.foldlM_cons, h1]
    exact ih (fun y hy => hl y (List.mem_cons_of_mem _ hy)) (g s x) h2

theorem editRowChecked_eq {dp : List (List Int)} (s1 s2 : List Char)
    (h : DpShape s2.length dp) {i : Nat} (hi1 : 1 ≤ i) (hi : i ≤ s1.length) :
    editRowChecked s1 s2 (s2.length : Int) dp i = some (editRow s1 s2 (s2.length : Int) dp i) ∧
      DpShape s2.length (editRow s1 s2 (s2.length : Int) dp i) := by
  have hlt : i % 2 < 2 := by omega
  unfold editRowChecked editRow
  rw [dpSetChecked_eq h hlt (Nat.zero_le _), Int.toNat_ofNat]
  simp only []
  refine foldlM_eq_foldl (DpShape s2.length) (fun j => 1 ≤ j ∧ j ≤ s2.length)
    (editCellChecked s1 s2 i) (editCell s1 s2 i) ?_ _ ?_ _ (dpShape_set h _ _ _)
  · intro s j hs hj
    exact ⟨editCellChecked_eq s1 s2 hs hi1 hi hj.1 hj.2, dpShape_editCell hs _ _ _ _⟩
  · intro j hj
    rw [List.mem_range'_1] at hj
    omega

theorem editDistanceChecked_eq (s1 s2 : List Char) (hl1 : s1.length < 2147483647)
    (hl2 : s2.length < 2147483647) :
    editDistanceChecked s1 s2 = some (editDistance s1 s2) := by
  unfold editDistanceChecked editDistance
  rw [toInt32_natCast (show s1.length < 2147483648 by omega),
    toInt32_natCast (show s2.length < 2147483648 by omega)]
  simp only [Int.toNat_ofNat_add_one, Int.toNat_ofNat, toNat_tmod_two]
  have g1 : ¬ ((s1.length : Int) - (s2.length : Int) ≤ -2 ^ 31 ∨
      (s1.length : Int) - (s2.length : Int) ≥ 2 ^ 31) := by omega
  have g2 : ¬ ((s2.length : Int) + 1 < 0 ∨ (s2.length : Int) + 1 ≥ 2 ^ 31 ∨
      (s1.length : Int) + 1 ≥ 2 ^ 31) := by omega
  have g3 : ¬ (Int.tmod (s1.length : Int) 2 < 0 ∨ (s2.length : Int) < 0) := by
    have e : Int.tmod (s1.length : Int) 2 = ((s1.length % 2 : Nat) : Int) :=
      (Int.ofNat_tmod s1.length 2).symm
    rw [e]
    omega
  rw [if_neg g1, if_neg g2]
  split
  · rfl
  · obtain ⟨h1, hs1⟩ := foldlM_eq_foldl (DpShape s2.length) (fun j => j ≤ s2.length)
      (fun dp j => dpSetChecked dp 0 j (j : Int)) (fun dp j => dpSet dp 0 j (j : Int))
      (fun s j hs hj => ⟨dpSetChecked_eq hs (by omega) hj _, dpShape_set hs _ _ _⟩)
      (List.range (s2.length + 1))
      (fun j hj => by rw [List.mem_range] at hj; omega) _ (dpShape_init s2.length)
    rw [h1]
    simp only []
    obtain ⟨h2, hs2⟩ := foldlM_eq_foldl (DpShape s2.length)
      (fun i => 1 ≤ i ∧ i ≤ s1.length) (editRowChecked s1 s2 (s2.length : Int))
      (editRow s1 s2 (s2.length : Int))
      (fun s i hs hi => editRowChecked_eq s1 s2 hs hi.1 hi.2)
      (List.range' 1 s1.length)
      (fun i hi => by rw [List.mem_range'_1] at hi; omega) _ hs1
    rw [h2]
    simp only [g3, if_false]
    exact dpGetChecked_eq hs2 (by omega) (le_refl _)

mutual
theorem dfsChecked_eq : ∀ (t : TrieNode) (target current : List Char) (md : Int)
    (sugg : List (List Char)), target.length < 2147483647 →
    current.length + t.height < 2147483647 →
    dfsChecked t target current md sugg = some (dfs t target current md sugg)
  | .mk e cs, target, current, md, sugg, ht, hh => by
    simp only [TrieNode.height] at hh
    unfold dfsChecked dfs
    split
    · rfl
    · rw [editDistanceChecked_eq current target (by omega) ht]
      by_cases he : (e && !current.isEmpty) = true
      · simp only [he, if_true]
        by_cases hd : editDistance current target ≤ md
        · simp only [hd, if_true]
          split
          · rfl
          · exact dfsChildrenChecked_eq cs target current md _ ht hh
        · simp only [hd, if_false]
          split
          · rfl
          · exact dfsChildrenChecked_eq cs target current md _ ht hh
      · simp only [he, Bool.false_eq_true, if_false]
        split
        · rfl
        · exact dfsChildrenChecked_eq cs target current md _ ht hh
theorem dfsChildrenChecked_eq : ∀ (cs : List (Char × TrieNode)) (target current : List Char)
    (md : Int) (sugg : List (List Char)), target.length < 2147483647 →
    current.length + TrieNode.heightChildren cs < 2147483647 →
    dfsChildrenChecked cs target current md sugg =
      some (dfsChildren cs target current md sugg)
  | [], target, current, md, sugg, _, _ => by
    simp [dfsChildrenChecked, dfsChildren]
  | (ch, child) :: rest, target, current, md, sugg, ht, hh => by
    simp only [TrieNode.heightChildren] at hh
    unfold dfsChildrenChecked dfsChildren
    rw [dfsChecked_eq child target (current ++ [ch]) md sugg ht
      (by simp only [List.length_append, List.length_singleton]; omega)]
    exact dfsChildrenChecked_eq rest target current md _ ht (by omega)
end

theorem getSuggestionsChecked_eq (t : TrieNode) (target : List Char) (md : Int)
    (ht : target.length < 2147483647) (hh : t.height < 2147483647) :
    getSuggestionsChecked t target md = some (getSuggestions t target md) := by
  unfold getSuggestionsChecked getSuggestions
  rw [dfsChecked_eq t target [] md [] ht (by simpa using hh)]

end OptimizedTrie

/-! ## The loading loop -/

theorem isLower_toLower {c : Char} (h : c.isAlpha = true) : c.toLower.isLower = true := by
  have key : ∀ n, 65 ≤ n → n ≤ 90 → (Char.ofNat (n + 32)).isLower = true := by
    intro n h1 h2
    interval_cases n <;> rfl
  unfold Char.toLower
  simp only [ge_iff_le]
  split
  · rename_i hup
    exact key _ hup.1 hup.2
  · rename_i hup
    have hal : isalpha c.toNat = true := by rw [isalpha_toNat]; exact h
    have hlow : isalpha c.toNat = true → ¬ (65 ≤ c.toNat ∧ c.toNat ≤ 90) →
        97 ≤ c.toNat ∧ c.toNat ≤ 122 := by
      unfold isalpha
      simp only [Bool.or_eq_true, Bool.and_eq_true, decide_eq_true_eq]
      omega
    have h97 := hlow hal hup
    have h1 : ∀ k : UInt32, (k ≤ c.val) ↔ k.toBitVec.toNat ≤ c.toNat := fun k => by
      rw [UInt32.le_def, BitVec.le_def]; rfl
    have h2 : ∀ k : UInt32, (c.val ≤ k) ↔ c.toNat ≤ k.toBitVec.toNat := fun k => by
      rw [UInt32.le_def, BitVec.le_def]; rfl
    have e97 : (97 : UInt32).toBitVec.toNat = 97 := rfl
    have e122 : (122 : UInt32).toBitVec.toNat = 122 := rfl
    simp only [Char.isLower, ge_iff_le, h1, h2, e97, e122, Bool.and_eq_true, decide_eq_true_eq]
    exact h97

namespace FastNormalizer

theorem after_append_singleton (calls : List (List Char)) (s : List Char) :
    after (calls ++ [s]) = (normalize (after calls) s).2 := by
  unfold after
  rw [List.foldl_append]
  rfl

end FastNormalizer

namespace DictionaryManager

theorem storedWords_cons (s : List Char) (tokens : List (List Char)) :
    storedWords (s :: tokens) =
      if ((s.filter Char.isAlpha).map Char.toLower).isEmpty then storedWords tokens
      else (s.filter Char.isAlpha).map Char.toLower :: storedWords tokens := by
  unfold storedWords
  rw [List.map_cons, List.filter_cons]
  cases ((s.filter Char.isAlpha).map Char.toLower).isEmpty <;> simp

theorem loadStep_foldl (tokens : List (List Char)) :
    ∀ (calls : List (List Char)) (dm : DictionaryManager),
      tokens.foldl
        (fun (st : DictionaryManager × FastNormalizer) word =>
          let r := FastNormalizer.normalize st.2 word
          if !r.1.isEmpty then (insertWord st.1 r.1, r.2) else (st.1, r.2))
        (dm, FastNormalizer.after calls) =
      ((storedWords tokens).foldl insertWord dm, FastNormalizer.after (calls ++ tokens)) := by
  induction tokens with
  | nil =>
    intro calls dm
    simp [storedWords]
  | cons s tokens ih =>
    intro calls dm
    rw [List.foldl_cons]
    simp only [FastNormalizer.normalize_after, ← FastNormalizer.after_append_singleton]
    rw [storedWords_cons]
    have e : calls ++ s :: tokens = (calls ++ [s]) ++ tokens := by simp
    rw [e]
    cases h : ((s.filter Char.isAlpha).map Char.toLower).isEmpty
    · simp only [Bool.not_false, if_true, Bool.false_eq_true, if_false]
      rw [ih, List.foldl_cons]
    · simp only [Bool.not_true, Bool.false_eq_true, if_false, if_true]
      rw [ih]

theorem loadDictionary_fst (calls tokens : List (List Char)) :
    (loadDictionary (FastNormalizer.after calls) tokens).1 = insertWords (storedWords tokens) := by
  unfold loadDictionary insertWords
  rw [loadStep_foldl]

theorem storedWords_ne_nil {tokens : List (List Char)} {w : List Char}
    (h : w ∈ storedWords tokens) : w ≠ [] := by
  unfold storedWords at h
  rw [List.mem_filter] at h
  intro e
  rw [e] at h
  simp at h

theorem storedWords_lower {tokens : List (List Char)} {w : List Char}
    (h : w ∈ storedWords tokens) : ∀ c ∈ w, c.isLower = true := by
  unfold storedWords at h
  rw [List.mem_filter, List.mem_map] at h
  obtain ⟨⟨s, _, hs⟩, _⟩ := h
  intro c hc
  rw [← hs, List.mem_map] at hc
  obtain ⟨d, hd, hdc⟩ := hc
  rw [← hdc]
  exact isLower_toLower (List.mem_filter.1 hd).2

end DictionaryManager

/-! ## The word spans of `parseText` -/

namespace TextProcessor

theorem lt_length_of_getElem? {text : List Char} {i : Nat} {c : Char}
    (h : text[i]? = some c) : i < text.length := by
  by_contra hn
  rw [List.getElem?_eq_none (by omega)] at h
  cases h

theorem drop_eq_cons {text : List Char} {i : Nat} {c : Char} (h : text[i]? = some c) :
    text.drop i = c :: text.drop (i + 1) := by
  have hi := lt_length_of_getElem? h
  rw [List.drop_eq_getElem_cons hi]
  rw [List.getElem?_eq_getElem hi] at h
  cases h
  rfl

theorem mem_slice {text : List Char} {i n : Nat} {c : Char}
    (h : c ∈ (text.drop i).take n) : ∃ k, i ≤ k ∧ k < i + n ∧ text[k]? = some c := by
  rw [List.mem_iff_getElem?] at h
  obtain ⟨m, hm⟩ := h
  rw [List.getElem?_take] at hm
  split at hm
  · rename_i hlt
    rw [List.getElem?_drop] at hm
    exact ⟨i + m, by omega, by omega, hm⟩
  · cases hm

theorem length_slice {text : List Char} {i j : Nat} (hj : j ≤ text.length) :
    ((text.drop i).take (j - i)).length = j - i := by
  rw [List.length_take, List.length_drop]
  omega

theorem extractWord_spec (text : List Char) :
    ∀ (fuel i : Nat) (word : List Char), i ≤ text.length → text.length - i < fuel →
      ∃ j, extractWord text fuel i word = some (j, word ++ (text.drop i).take (j - i)) ∧
        i ≤ j ∧ j ≤ text.length ∧
        (∀ k c, i ≤ k → k < j → text[k]? = some c → c.isAlpha = true) ∧
        (∀ c, text[j]? = some c → c.isAlpha = false) := by
  intro fuel
  induction fuel with
  | zero =>
    intro i word _ h
    omega
  | succ fuel ih =>
    intro i word hi hf
    unfold extractWord
    cases h : text[i]? with
    | none =>
      refine ⟨i, by simp, le_refl _, hi, ?_, ?_⟩
      · intro k c h1 h2
        omega
      · intro c hc
        rw [h] at hc
        cases hc
    | some c =>
      have hlt := lt_length_of_getElem? h
      by_cases ha : isalpha c.toNat = true
      · simp only [ha, if_true]
        obtain ⟨j, hj, h1, h2, h3, h4⟩ := ih (i + 1) (word ++ [c]) (by omega) (by omega)
        refine ⟨j, ?_, by omega, h2, ?_, h4⟩
        · rw [hj, drop_eq_cons h]
          have e : j - i = (j - (i + 1)) + 1 := by omega
          rw [e, List.take_succ_cons]
          simp
        · intro k c' hk1 hk2 hc'
          by_cases hki : k = i
          · subst hki
            rw [h] at hc'
            cases hc'
            rw [← isalpha_toNat]
            exact ha
          · exact h3 k c' (by omega) hk2 hc'
      · simp only [ha]
        refine ⟨i, by simp, le_refl _, hi, ?_, ?_⟩
        · intro k c' h1 h2
          omega
        · intro c' hc'
          rw [h] at hc'
          cases hc'
          rw [← isalpha_toNat]
          simpa using ha

theorem spans_weaken (dict : DictionaryManager) (text : List Char) {i : Nat}
    (hi : ∀ c, text[i]? = some c → c.isAlpha = false) :
    ∀ ws, Spans dict text (i + 1) ws → Spans dict text i ws := by
  have hgap : ∀ k c, i ≤ k → ¬ (i + 1 ≤ k) → text[k]? = some c → c.isAlpha = false := by
    intro k c h1 h2 hc
    have : k = i := by omega
    subst this
    exact hi c hc
  intro ws h
  cases ws with
  | nil =>
    simp only [Spans] at h ⊢
    intro k c hk hc
    by_cases h1 : i + 1 ≤ k
    · exact h k c h1 hc
    · exact hgap k c hk h1 hc
  | cons w ws =>
    simp only [Spans] at h ⊢
    obtain ⟨h1, h2, hrest⟩ := h
    refine ⟨by omega, ?_, hrest⟩
    intro k c hk hk' hc
    by_cases h3 : i + 1 ≤ k
    · exact h2 k c h3 hk' hc
    · exact hgap k c hk h3 hc

theorem parseLoop_spec (dict : DictionaryManager) (text : List Char) :
    ∀ (fuel i : Nat) (calls : List (List Char)) (words : List WordInfo),
      i ≤ text.length → text.length - i < fuel →
      ∃ ws norm, parseLoop dict text fuel i (FastNormalizer.after calls) words =
          some (words ++ ws, norm) ∧ Spans dict text i ws := by
  intro fuel
  induction fuel with
  | zero =>
    intro i calls words _ h
    omega
  | succ fuel ih =>
    intro i calls words hi hf
    unfold parseLoop
    cases h : text[i]? with
    | none =>
      refine ⟨[], FastNormalizer.after calls, by simp, ?_⟩
      simp only [Spans]
      intro k c hk hc
      have h1 := lt_length_of_getElem? hc
      rw [List.getElem?_eq_none_iff] at h
      omega
    | some c =>
      have hlt := lt_length_of_getElem? h
      by_cases ha : isalpha c.toNat = true
      · simp only [ha, if_true]
        obtain ⟨j, hj, h1, h2, h3, h4⟩ :=
          extractWord_spec text (text.length + 1) i [] hi (by omega)
        have hca : c.isAlpha = true := by rw [← isalpha_toNat]; exact ha
        have hij : i < j := by
          by_contra hn
          have : j = i := by omega
          subst this
          have := h4 c h
          rw [hca] at this
          cases this
        rw [hj]
        simp only [List.nil_append]
        have hword : ∀ c ∈ (text.drop i).take (j - i), c.isAlpha = true := by
          intro c' hc'
          obtain ⟨k, hk1, hk2, hk3⟩ := mem_slice hc'
          exact h3 k c' hk1 (by omega) hk3
        have hnorm : (FastNormalizer.normalize (FastNormalizer.after calls)
            ((text.drop i).take (j - i))).1 =
            (((text.drop i).take (j - i)).filter Char.isAlpha).map Char.toLower :=
          FastNormalizer.normalize_after calls _
        have hne : ((((text.drop i).take (j - i)).filter Char.isAlpha).map
            Char.toLower).isEmpty = false := by
          rw [List.filter_eq_self.2 hword]
          have hl := @length_slice text i j h2
          cases hs : (text.drop i).take (j - i) with
          | nil => rw [hs] at hl; simp at hl; omega
          | cons a l => rfl
        obtain ⟨ws, norm, hws, hsp⟩ := ih j (calls ++ [(text.drop i).take (j - i)])
          (words ++ [⟨(text.drop i).take (j - i), i, j,
            dict.isCorrect ((((text.drop i).take (j - i)).filter Char.isAlpha).map
              Char.toLower)⟩]) h2 (by omega)
        refine ⟨(⟨(text.drop i).take (j - i), i, j,
            dict.isCorrect ((((text.drop i).take (j - i)).filter Char.isAlpha).map
              Char.toLower)⟩ : WordInfo) :: ws, norm, ?_, ?_⟩
        · rw [← FastNormalizer.after_append_singleton, hnorm, hne, Bool.false_or, hws]
          simp
        · simp only [Spans]
          exact ⟨le_refl _, fun k c' hk1 hk2 => by omega, ⟨c, h, hca⟩, hij, h2, trivial, hword,
            h4, trivial, hsp⟩
      · simp only [ha]
        obtain ⟨ws, norm, hws, hsp⟩ := ih (i + 1) calls words (by omega) (by omega)
        refine ⟨ws, norm, hws, spans_weaken dict text ?_ ws hsp⟩
        intro c' hc'
        rw [h] at hc'
        cases hc'
        rw [← isalpha_toNat]
        simpa using ha

theorem parseText_spec (dict : DictionaryManager) (calls : List (List Char))
    (text : List Char) :
    ∃ ws norm, parseText dict (FastNormalizer.after calls) text = some (ws, norm) ∧
      Spans dict text 0 ws := by
  obtain ⟨ws, norm, h, hs⟩ :=
    parseLoop_spec dict text (text.length + 1) 0 calls [] (Nat.zero_le _) (by omega)
  exact ⟨ws, norm, by simpa [parseText] using h, hs⟩

end TextProcessor

namespace TextProcessor

theorem spans_mem (dict : DictionaryManager) (text : List Char) :
    ∀ (ws : List WordInfo) (p : Nat), Spans dict text p ws → ∀ w ∈ ws,
      w.start_pos < w.end_pos ∧ w.end_pos ≤ text.length ∧
        w.word = (text.drop w.start_pos).take (w.end_pos - w.start_pos) ∧
        (∀ c ∈ w.word, c.isAlpha = true) ∧
        w.is_correct = dict.isCorrect ((w.word.filter Char.isAlpha).map Char.toLower) := by
  intro ws
  induction ws with
  | nil =>
    intro p _ w hw
    cases hw
  | cons v ws ih =>
    intro p h w hw
    simp only [Spans] at h
    obtain ⟨_, _, _, h4, h5, h6, h7, _, h9, h10⟩ := h
    rcases List.mem_cons.1 hw with e | hmem
    · subst e
      exact ⟨h4, h5, h6, h7, h9⟩
    · exact ih _ h10 w hmem

theorem spans_chain (dict : DictionaryManager) (text : List Char) :
    ∀ (ws : List WordInfo) (p : Nat), Spans dict text p ws →
      List.Chain' (fun a b : WordInfo => a.end_pos < b.start_pos) ws := by
  intro ws
  induction ws with
  | nil =>
    intro p _
    exact List.chain'_nil
  | cons v ws ih =>
    intro p h
    simp only [Spans] at h
    obtain ⟨_, _, _, _, _, _, _, h8, _, h10⟩ := h
    cases ws with
    | nil => exact List.chain'_singleton _
    | cons u us =>
      rw [List.chain'_cons]
      refine ⟨?_, ih _ h10⟩
      simp only [Spans] at h10
      obtain ⟨g1, _, ⟨c, hc, hca⟩, _⟩ := h10
      by_contra hn
      have e : v.end_pos = u.start_pos := by omega
      rw [← e] at hc
      have := h8 c hc
      rw [hca] at this
      cases this

theorem spans_outside (dict : DictionaryManager) (text : List Char) :
    ∀ (ws : List WordInfo) (p : Nat), Spans dict text p ws → ∀ k c, p ≤ k →
      text[k]? = some c → (∀ w ∈ ws, ¬ (w.start_pos ≤ k ∧ k < w.end_pos)) →
      c.isAlpha = false := by
  intro ws
  induction ws with
  | nil =>
    intro p h k c hk hc _
    simp only [Spans] at h
    exact h k c hk hc
  | cons v ws ih =>
    intro p h k c hk hc hout
    simp only [Spans] at h
    obtain ⟨_, h2, _, _, _, _, _, _, _, h10⟩ := h
    by_cases h1 : k < v.start_pos
    · exact h2 k c hk h1 hc
    · have hv := hout v (List.mem_cons_self _ _)
      exact ih _ h10 k c (by omega) hc
        (fun w hw => hout w (List.mem_cons_of_mem _ hw))

theorem drop_split (text : List Char) {p s : Nat} (hps : p ≤ s) :
    text.drop p = (text.drop p).take (s - p) ++ text.drop s := by
  have h := (List.take_append_drop (s - p) (text.drop p)).symm
  rw [List.drop_drop] at h
  have e : p + (s - p) = s := by omega
  rw [e] at h
  exact h

theorem toInt32_of_range {x : Int} (h1 : -2147483648 ≤ x) (h2 : x < 2147483648) :
    toInt32 x = x := by
  unfold toInt32
  omega

theorem replaceStep_spec (dict : DictionaryManager) (text : List Char)
    (r : List (List Char × List Char)) (w : WordInfo) (ws : List WordInfo) (p : Nat)
    (pre : List Char) (h : Spans dict text p (w :: ws)) (htext : text.length < 2147483648)
    (hres : (pre ++ (text.drop p).take (w.start_pos - p) ++
        (match r.lookup w.word with
          | some rep => rep
          | none => (text.drop w.start_pos).take (w.end_pos - w.start_pos))).length
      < 2147483648) :
    replaceStep r (pre ++ text.drop p, (pre.length : Int) - (p : Int)) w =
      some (pre ++ (text.drop p).take (w.start_pos - p) ++
          (match r.lookup w.word with
            | some rep => rep
            | none => (text.drop w.start_pos).take (w.end_pos - w.start_pos)) ++
          text.drop w.end_pos,
        ((pre ++ (text.drop p).take (w.start_pos - p) ++
          (match r.lookup w.word with
            | some rep => rep
            | none => (text.drop w.start_pos).take (w.end_pos - w.start_pos))).length : Int)
          - (w.end_pos : Int)) := by
  simp only [Spans] at h
  obtain ⟨h1, _, _, h4, h5, h6, _, _, _, _⟩ := h
  have hgap : ((text.drop p).take (w.start_pos - p)).length = w.start_pos - p :=
    length_slice (by omega)
  have hwl : w.word.length = w.end_pos - w.start_pos := by
    rw [h6]
    exact length_slice h5
  have hd1 := drop_split text h1
  have hd2 := drop_split text (le_of_lt h4)
  rw [← h6] at hd2
  unfold replaceStep
  cases hl : List.lookup w.word r with
  | none =>
    simp only []
    rw [← h6]
    have e1 : pre ++ text.drop p =
        pre ++ (text.drop p).take (w.start_pos - p) ++ w.word ++ text.drop w.end_pos := by
      rw [List.append_assoc, List.append_assoc, ← hd2, ← hd1]
    have e2 : (pre.length : Int) - (p : Int) =
        ((pre ++ (text.drop p).take (w.start_pos - p) ++ w.word).length : Int)
          - (w.end_pos : Int) := by
      simp only [List.length_append, hgap, hwl]
      push_cast
      omega
    rw [← e1, ← e2]
  | some rep =>
    rw [hl] at hres
    simp only [List.length_append, hgap] at hres
    simp only []
    have hlen : (pre ++ text.drop p).length = pre.length + (text.length - p) := by
      rw [List.length_append, List.length_drop]
    have hmod : ((w.start_pos : Int) + ((pre.length : Int) - (p : Int))) % 2 ^ 64 =
        ((pre.length + (w.start_pos - p) : Nat) : Int) := by
      rw [Int.emod_eq_of_lt (by omega) (by omega)]
      omega
    have hok : ¬ (((pre.length + (w.start_pos - p) : Nat) : Int) >
          ((pre ++ text.drop p).length : Int)) := by
      rw [hlen]
      omega
    rw [hmod, if_neg hok, Int.toNat_ofNat, List.take_append]
    have e3 : pre.length + (w.start_pos - p) + w.word.length =
        pre.length + ((w.start_pos - p) + w.word.length) := by omega
    rw [e3, List.drop_append, List.drop_drop]
    have e4 : p + (w.start_pos - p + w.word.length) = w.end_pos := by omega
    rw [e4]
    have e2 : toInt32 ((pre.length : Int) - (p : Int) +
          ((rep.length : Int) - (w.word.length : Int))) =
        ((pre ++ (text.drop p).take (w.start_pos - p) ++ rep).length : Int)
          - (w.end_pos : Int) := by
      rw [toInt32_of_range (by omega) (by omega)]
      simp only [List.length_append, hgap, hwl]
      push_cast
      omega
    rw [e2]

theorem replace_fold (dict : DictionaryManager) (text : List Char)
    (r : List (List Char × List Char)) (htext : text.length < 2147483648) :
    ∀ (ws : List WordInfo) (p : Nat) (pre : List Char), Spans dict text p ws →
      (pre ++ rewritten text r ws p).length < 2147483648 →
      ∃ off, ws.foldlM (replaceStep r) (pre ++ text.drop p, (pre.length : Int) - (p : Int)) =
        some (pre ++ rewritten text r ws p, off) := by
  intro ws
  induction ws with
  | nil =>
    intro p pre _ _
    exact ⟨_, rfl⟩
  | cons w ws ih =>
    intro p pre h hres
    rw [rewritten] at hres
    simp only [← List.append_assoc] at hres
    have hstep := replaceStep_spec dict text r w ws p pre h htext
      (by rw [List.length_append] at hres; omega)
    simp only [Spans] at h
    obtain ⟨_, _, _, _, _, _, _, _, _, h10⟩ := h
    rw [List.foldlM_cons, hstep]
    simp only [Option.bind_eq_bind, Option.some_bind]
    obtain ⟨off, hoff⟩ := ih w.end_pos _ h10 hres
    refine ⟨off, ?_⟩
    rw [hoff, rewritten]
    simp only [List.append_assoc]

theorem saveWithReplacements_spans (dict : DictionaryManager) (text : List Char)
    (r : List (List Char × List Char)) (ws : List WordInfo) (h : Spans dict text 0 ws)
    (htext : text.length < 2147483648)
    (hres : (rewritten text r ws 0).length < 2147483648) :
    saveWithReplacements text ws r = some (rewritten text r ws 0) := by
  obtain ⟨off, hoff⟩ := replace_fold dict text r htext ws 0 [] h (by simpa using hres)
  unfold saveWithReplacements
  simp only [List.nil_append, List.drop_zero, List.length_nil, Nat.cast_zero, sub_zero]
    at hoff
  rw [hoff]

theorem saveWithReplacements_empty (text : List Char) (ws : List WordInfo) :
    saveWithReplacements text ws [] = some text := by
  have h : ∀ st : List Char × Int, ws.foldlM (replaceStep []) st = some st := by
    induction ws with
    | nil => intro st; rfl
    | cons w ws ih =>
      intro st
      rw [List.foldlM_cons]
      simp only [replaceStep, List.lookup_nil, Option.bind_eq_bind, Option.some_bind]
      exact ih st
  unfold saveWithReplacements
  rw [h]

end TextProcessor

/-! ## Lengths outside the range of `int` -/

namespace OptimizedTrie

open TrieNode

theorem editDistance_wrap_right (c d : Char) (s : List Char) (hs : s.length = 4294967296) :
    editDistance [c] (d :: s) = if c = d then 0 else 1 := by
  unfold editDistance
  simp only [List.length_cons, List.length_nil, hs]
  have e1 : toInt32 (((4294967296 + 1 : Nat)) : Int) = 1 := by decide
  have e2 : toInt32 (((0 + 1 : Nat)) : Int) = 1 := by decide
  rw [e1, e2]
  by_cases h : c = d
  · subst h
    simp [editRow, editCell, dpSet, dpGet, List.range_succ, List.range']
    decide
  · simp [editRow, editCell, dpSet, dpGet, List.range_succ, List.range', h]
    decide

theorem editDistance_wrap_left (c d : Char) (s : List Char) (hs : s.length = 4294967296) :
    editDistance (d :: s) [c] = if d = c then 0 else 1 := by
  unfold editDistance
  simp only [List.length_cons, List.length_nil, hs]
  have e1 : toInt32 (((4294967296 + 1 : Nat)) : Int) = 1 := by decide
  have e2 : toInt32 (((0 + 1 : Nat)) : Int) = 1 := by decide
  rw [e1, e2]
  by_cases h : d = c
  · subst h
    simp [editRow, editCell, dpSet, dpGet, List.range_succ, List.range']
    decide
  · simp [editRow, editCell, dpSet, dpGet, List.range_succ, List.range', h]
    decide

mutual
theorem collect_length_le : ∀ (t : TrieNode) (target current : List Char) (md : Int)
    (x : List Char), x ∈ collect t target current md →
      x = current ∨ (x.length : Int) ≤ pruneBound target md + 1
  | .mk e cs, target, current, md, x, h => by
    unfold collect at h
    rcases List.mem_append.1 h with h | h
    · left
      split at h
      · split at h
        · simpa using h
        · simp at h
      · simp at h
    · right
      split at h
      · simp at h
      · rename_i hp
        exact collectChildren_length_le cs target current md x h (by omega)
theorem collectChildren_length_le : ∀ (cs : List (Char × TrieNode))
    (target current : List Char) (md : Int) (x : List Char),
    x ∈ collectChildren cs target current md → (current.length : Int) ≤ pruneBound target md →
      (x.length : Int) ≤ pruneBound target md + 1
  | [], target, current, md, x, h, _ => by
    simp [collectChildren] at h
  | (ch, child) :: rest, target, current, md, x, h, hp => by
    unfold collectChildren at h
    rcases List.mem_append.1 h with h | h
    · rcases collect_length_le child target (current ++ [ch]) md x h with h1 | h1
      · rw [h1]
        simp only [List.length_append, List.length_singleton]
        push_cast
        omega
      · exact h1
    · exact collectChildren_length_le rest target current md x h hp
end

theorem dfsUnpruned_chain (target : List Char) (md : Int) (w : List Char) :
    ∀ current : List Char,
      dfsUnpruned (insertFrom w (.mk false [])) target current md [] =
        if current ++ w ≠ [] ∧ editDistance (current ++ w) target ≤ md then [current ++ w]
        else [] := by
  induction w with
  | nil =>
    intro current
    cases current with
    | nil => simp [insertFrom, dfsUnpruned, dfsChildrenUnpruned]
    | cons a l =>
      by_cases h : editDistance (a :: l) target ≤ md <;>
        simp [insertFrom, dfsUnpruned, dfsChildrenUnpruned, h]
  | cons c w ih =>
    intro current
    have e : current ++ c :: w = (current ++ [c]) ++ w := by simp
    have hne : (current ++ [c]) ++ w ≠ [] := by simp
    simp only [insertFrom, List.lookup_nil, List.nil_append, dfsUnpruned,
      dfsChildrenUnpruned, List.length_nil, ge_iff_le, if_false,
      Bool.false_and, Bool.false_eq_true]
    rw [ih (current ++ [c]), e, if_neg (by decide)]

end OptimizedTrie

namespace TextProcessor

theorem rewritten_nil (dict : DictionaryManager) (text : List Char) :
    ∀ (ws : List WordInfo) (p : Nat), Spans dict text p ws →
      rewritten text [] ws p = text.drop p := by
  intro ws
  induction ws with
  | nil =>
    intro p _
    rfl
  | cons w ws ih =>
    intro p h
    simp only [Spans] at h
    obtain ⟨h1, _, _, h4, _, _, _, _, _, h10⟩ := h
    rw [rewritten, ih _ h10]
    simp only [List.lookup_nil]
    rw [List.append_assoc, ← drop_split text (le_of_lt h4), ← drop_split text h1]

end TextProcessor

theorem wrapString_length : wrapString.length = 4294967297 := by
  unfold wrapString
  rw [List.length_cons, List.length_replicate]

theorem editDistance_wrapString_right :
    OptimizedTrie.editDistance ['a'] wrapString = 0 :=
  (OptimizedTrie.editDistance_wrap_right 'a' 'a' (List.replicate 4294967296 'a')
    (List.length_replicate _ _)).trans (if_pos rfl)

theorem editDistance_wrapString_left :
    OptimizedTrie.editDistance wrapString ['a'] = 0 :=
  (OptimizedTrie.editDistance_wrap_left 'a' 'a' (List.replicate 4294967296 'a')
    (List.length_replicate _ _)).trans (if_pos rfl)

namespace TextProcessor

/-- The first replacement of the text "a b" by a string of `2^31 + 1` characters leaves
`offset` at `-2^31`. -/
theorem replaceStep_long_first (rep : List Char) (hlen : rep.length = 2147483649) :
    replaceStep [("a".toList, rep), ("b".toList, "x".toList)]
      ("a b".toList, 0) ⟨"a".toList, 0, 1, false⟩ =
    some (rep ++ " b".toList, -2147483648) := by
  unfold replaceStep
  rw [show List.lookup (⟨"a".toList, 0, 1, false⟩ : WordInfo).word
      [("a".toList, rep), ("b".toList, "x".toList)] = some rep from rfl]
  simp only []
  rw [hlen]
  rfl

/-- With `offset` at `-2^31` the position of the second word lies beyond the string. -/
theorem replaceStep_long_second (rep : List Char) (hlen : rep.length = 2147483649) :
    replaceStep [("a".toList, rep), ("b".toList, "x".toList)]
      (rep ++ " b".toList, -2147483648) ⟨"b".toList, 2, 3, false⟩ = none := by
  unfold replaceStep
  rw [show List.lookup (⟨"b".toList, 2, 3, false⟩ : WordInfo).word
      [("a".toList, rep), ("b".toList, "x".toList)] = some "x".toList from rfl]
  simp only []
  rw [List.length_append, hlen]
  rfl

theorem replace_fold_long (rep : List Char) (hlen : rep.length = 2147483649) :
    List.foldlM (replaceStep [("a".toList, rep), ("b".toList, "x".toList)])
      ("a b".toList, 0) [⟨"a".toList, 0, 1, false⟩, ⟨"b".toList, 2, 3, false⟩] = none := by
  rw [List.foldlM_cons, replaceStep_long_first _ hlen]
  rw [Option.bind_eq_bind, Option.some_bind]
  rw [List.foldlM_cons, replaceStep_long_second _ hlen]
  rfl

theorem saveWithReplacements_long (rep : List Char) (hlen : rep.length = 2147483649) :
    saveWithReplacements "a b".toList
      [⟨"a".toList, 0, 1, false⟩, ⟨"b".toList, 2, 3, false⟩]
      [("a".toList, rep), ("b".toList, "x".toList)] = none := by
  unfold saveWithReplacements
  rw [replace_fold_long rep hlen]

end TextProcessor

/-! ## The claims -/

open OptimizedTrie TrieNode

/-- C1, as stated, fails in two ways.  With the single word "abcd", the empty target and
`max_dist = 3` the length gap is above two, `editDistance` answers `3` and "abcd" is
suggested although its Levenshtein distance to the target is `4`.  With the single word "a",
a target of `2^32 + 1` letters "a" and `max_dist = 1`, the length of the target narrows to
the `int` value `1`, `editDistance` answers `0` and "a" is suggested although its distance to
the target exceeds `1`. -/
theorem C1_counterexample :
    ("abcd".toList ∈ getSuggestions (build ["abcd".toList]) [] 3 ∧
      ¬ ((levDist "abcd".toList [] : Int) ≤ 3)) ∧
    ("a".toList ∈ getSuggestions (build ["a".toList]) wrapString 1 ∧
      ¬ ((levDist "a".toList wrapString : Int) ≤ 1)) := by
  refine ⟨⟨by decide, ?_⟩, ?_, ?_⟩
  · rw [levDist_nil_right]
    decide
  · have hne : "a".toList ≠ [] := by decide
    have hd : editDistance "a".toList wrapString ≤ 1 := by
      have e : editDistance "a".toList wrapString = 0 := editDistance_wrapString_right
      rw [e]
      decide
    refine mem_getSuggestions_of_few (wf_build _)
      ((hasPath_build_iff ["a".toList] hne).2 (by decide)) hne hd ?_ ["a".toList] ?_
      (by decide)
    · unfold pruneBound
      rw [wrapString_length]
      decide
    · intro x hx
      obtain ⟨s, hxs, hp, hxne, _⟩ := collect_sound _ wrapString [] 1 x hx
      simp only [List.nil_append] at hxs
      subst hxs
      exact (hasPath_build_iff ["a".toList] hxne).1 hp
  · have h := (length_le_levDist "a".toList wrapString).2
    rw [wrapString_length] at h
    have h1 : "a".toList.length = 1 := by decide
    rw [h1] at h
    omega

/-- C1 (amended): for every trie, every `max_dist ≤ 2`, and every target and suggestion
shorter than `2^31 - 1`, a suggestion returned by `getSuggestions` has reference Levenshtein
distance at most `max_dist` to the target. -/
theorem C1_distance_bound (t : TrieNode) (target : List Char) (max_dist : Int)
    (hmd : max_dist ≤ 2) (ht : target.length < 2147483647) :
    ∀ w ∈ getSuggestions t target max_dist, w.length < 2147483647 →
      (levDist w target : Int) ≤ max_dist := by
  intro w hw hlen
  exact (editDistance_le_iff w target hmd hlen ht).1 (mem_getSuggestions_sound hw).2.2

theorem C1_distance_bound_witness :
    "hello".toList ∈
        getSuggestions (build ["hello".toList, "help".toList]) "helllo".toList 1 ∧
      (levDist "hello".toList "helllo".toList : Int) ≤ 1 :=
  ⟨by decide,
    C1_distance_bound (build ["hello".toList, "help".toList]) "helllo".toList 1 (by decide)
      (by decide) "hello".toList (by decide) (by decide)⟩

/-- C2, as stated, fails for strings too long for `int`: for "a" and a string of `2^32 + 1`
letters "a" the lengths differ by more than two, yet the second length narrows to `1` and
`editDistance` returns `0`, not the sentinel `3`. -/
theorem C2_counterexample :
    editDistance "a".toList wrapString = 0 ∧
      |(("a".toList.length : Nat) : Int) - ((wrapString.length : Nat) : Int)| > 2 := by
  constructor
  · exact editDistance_wrapString_right
  · rw [wrapString_length]
    decide

/-- C2 (amended): for strings shorter than `2^31 - 1`, `editDistance a b` is the reference
Levenshtein distance when the lengths differ by at most two, and the sentinel `3` when they
differ by more. -/
theorem C2_editDistance_correct (a b : List Char) (ha : a.length < 2147483647)
    (hb : b.length < 2147483647) :
    editDistance a b =
      if |(a.length : Int) - (b.length : Int)| > 2 then 3 else (levDist a b : Int) :=
  editDistance_eq a b ha hb

theorem C2_editDistance_correct_witness :
    editDistance "kitten".toList "sitting".toList =
      if |("kitten".toList.length : Int) - ("sitting".toList.length : Int)| > 2 then 3
      else (levDist "kitten".toList "sitting".toList : Int) :=
  C2_editDistance_correct "kitten".toList "sitting".toList (by decide) (by decide)

/-- C3, as stated, fails for `max_dist = 3`: the vocabulary holds "abcdefghijklmn" and its
ten prefixes of lengths 1 to 10; for the target "abcdefghijklmn" at most ten inserted words
are within distance 3 (the prefix "a" is not), the word itself is at distance 0, yet the ten
prefixes (length gap above two, so `editDistance` answers `3`) fill the list and the word
itself is never reached. -/
theorem C3_counterexample :
    (matchingWords chainWords "abcdefghijklmn".toList 3).length ≤ 10 ∧
      "abcdefghijklmn".toList ∈ chainWords ∧
      "abcdefghijklmn".toList ≠ [] ∧
      (levDist "abcdefghijklmn".toList "abcdefghijklmn".toList : Int) ≤ 3 ∧
      "abcdefghijklmn".toList ∉ getSuggestions (build chainWords) "abcdefghijklmn".toList 3 := by
  refine ⟨?_, by decide, by decide, ?_, by decide⟩
  · have hlen := (length_le_levDist "a".toList "abcdefghijklmn".toList).2
    have h14 : "abcdefghijklmn".toList.length = 14 := by decide
    have h1 : "a".toList.length = 1 := by decide
    rw [h14, h1] at hlen
    have hp : ¬ (decide ("a".toList ≠ [] ∧
        (levDist "a".toList "abcdefghijklmn".toList : Int) ≤ 3) = true) := by
      simp only [decide_eq_true_eq, not_and, not_le]
      intro _
      omega
    have hf : ∀ (p : List Char → Bool) (x : List Char) (l : List (List Char)),
        ¬ (p x = true) → (List.filter p (x :: l)).length ≤ l.length := by
      intro p x l h
      rw [List.filter_cons_of_neg h]
      exact List.length_filter_le _ _
    unfold matchingWords chainWords
    exact le_trans (List.dedup_sublist _).length_le (hf _ _ _ hp)
  · rw [levDist_self]
    decide

/-- C3 (amended): for a trie built by inserting `ws` (with its child mappings iterated in
any order), every `max_dist ≤ 2`, and target and words shorter than `2^31 - 1`, if at most
ten inserted non-empty words are within Levenshtein distance `max_dist` of the target, then
each of them is returned by `getSuggestions`; and for the vocabulary "hello",
`getSuggestions("helllo", 1)` is the list holding "hello" alone. -/
theorem C3_completeness (ws : List (List Char)) (t : TrieNode) (target : List Char)
    (max_dist : Int) (hsame : SameUpToOrder (build ws) t) (hmd : max_dist ≤ 2)
    (ht : target.length < 2147483647) (hws : ∀ w ∈ ws, w.length < 2147483647)
    (hfew : (matchingWords ws target max_dist).length ≤ 10) :
    (∀ w ∈ ws, w ≠ [] → (levDist w target : Int) ≤ max_dist →
      w ∈ getSuggestions t target max_dist) ∧
    getSuggestions (build ["hello".toList]) "helllo".toList 1 = ["hello".toList] := by
  refine ⟨?_, by decide⟩
  intro w hw hne hl
  have hwf : WF t := sameUpToOrder_wf _ _ (wf_build ws) hsame
  have hd : editDistance w target ≤ max_dist :=
    (editDistance_le_iff w target hmd (hws w hw) ht).2 hl
  refine mem_getSuggestions_of_few hwf
    ((sameUpToOrder_hasPath w _ _ hsame).1 ((hasPath_build_iff ws hne).2 hw)) hne hd
    (length_le_of_editDistance_le hmd (hws w hw) ht hd) (matchingWords ws target max_dist)
    ?_ hfew
  intro x hx
  obtain ⟨s, hxs, hp, hxne, hxd⟩ := collect_sound t target [] max_dist x hx
  simp only [List.nil_append] at hxs
  subst hxs
  have hxmem := (hasPath_build_iff ws hxne).1 ((sameUpToOrder_hasPath _ _ _ hsame).2 hp)
  unfold matchingWords
  rw [List.mem_dedup, List.mem_filter]
  refine ⟨hxmem, ?_⟩
  simp only [decide_eq_true_eq]
  exact ⟨hxne, (editDistance_le_iff _ target hmd (hws _ hxmem) ht).1 hxd⟩

theorem C3_completeness_witness :
    "hello".toList ∈ getSuggestions (build ["hello".toList]) "helllo".toList 1 ∧
      getSuggestions (build ["hello".toList]) "helllo".toList 1 = ["hello".toList] :=
  ⟨(C3_completeness ["hello".toList] (build ["hello".toList]) "helllo".toList 1
      (sameUpToOrder_refl _) (by decide) (by decide) (by decide)
      (le_trans (List.dedup_sublist _).length_le
        (le_trans (List.length_filter_le _ _) (by decide)))).1
      "hello".toList (by decide) (by decide) (by simp [levDist]),
    (C3_completeness ["hello".toList] (build ["hello".toList]) "helllo".toList 1
      (sameUpToOrder_refl _) (by decide) (by decide) (by decide)
      (le_trans (List.dedup_sublist _).length_le
        (le_trans (List.length_filter_le _ _) (by decide)))).2⟩

/-- C4: the list returned by `getSuggestions` never has more than ten entries. -/
theorem C4_cap_respected (t : TrieNode) (target : List Char) (max_dist : Int) :
    (getSuggestions t target max_dist).length ≤ 10 := by
  unfold getSuggestions
  simp only []
  split
  · rw [List.length_take]
    exact Nat.min_le_left _ _
  · omega

/-- C5: after any sequence of insertions into the empty trie and exact index, every
non-empty word of the sequence is found by `search` and by `isCorrect`. -/
theorem C5_exactness (ws : List (List Char)) (w : List Char) (hw : w ∈ ws) (hne : w ≠ []) :
    search (DictionaryManager.insertWords ws).dictionary w = true ∧
      DictionaryManager.isCorrect (DictionaryManager.insertWords ws) w = true := by
  rw [DictionaryManager.dictionary_insertWords, search_build,
    DictionaryManager.isCorrect_insertWords]
  refine ⟨?_, hw⟩
  cases w with
  | nil => exact absurd rfl hne
  | cons c w => simp [hw]

theorem C5_exactness_witness :
    search (DictionaryManager.insertWords
        ["ca".toList, "cat".toList, "cats".toList]).dictionary "cat".toList = true ∧
      DictionaryManager.isCorrect (DictionaryManager.insertWords
        ["ca".toList, "cat".toList, "cats".toList]) "cat".toList = true :=
  C5_exactness _ _ (by decide) (by decide)

/-- C6: after any sequence of insertions into the empty trie, `search` is false on every
string that was not inserted. -/
theorem C6_negative_exactness (ws : List (List Char)) (w : List Char) (hw : w ∉ ws) :
    search (build ws) w = false := by
  rw [search_build]
  simp [hw]

theorem C6_negative_exactness_witness :
    search (build ["cat".toList, "dog".toList]) "ca".toList = false ∧
      search (build ["cat".toList, "dog".toList]) "cats".toList = false :=
  ⟨C6_negative_exactness _ _ (by decide), C6_negative_exactness _ _ (by decide)⟩

/-- C7: inserting a word a second time leaves the trie, hence `search` and
`getSuggestions`, unchanged. -/
theorem C7_insert_idempotent (t : TrieNode) (w : List Char) :
    insert (insert t w) w = insert t w ∧
      (∀ x, search (insert (insert t w) w) x = search (insert t w) x) ∧
      (∀ target d, getSuggestions (insert (insert t w) w) target d =
        getSuggestions (insert t w) target d) := by
  refine ⟨insert_idem t w, ?_, ?_⟩
  · intro x
    rw [insert_idem]
  · intro target d
    rw [insert_idem]

/-- C8: inserting the empty word changes nothing; the root of a trie built by insertions is
never terminal, and `search` of the empty word is false. -/
theorem C8_empty_word_guard (t : TrieNode) (ws : List (List Char)) :
    insert t [] = t ∧ (build ws).is_end = false ∧ search (build ws) [] = false ∧
      search t [] = false := by
  refine ⟨rfl, ?_, rfl, rfl⟩
  unfold build
  rw [is_end_foldl_insert]
  rfl

/-- C9: `normalize`, called in any state of its static table, returns the ASCII letters of
the input in order, each in lower case; the result is empty exactly when the input has no
letter; and "Don't!" becomes "dont". -/
theorem C9_normalize (calls : List (List Char)) (s : List Char) :
    (FastNormalizer.normalize (FastNormalizer.after calls) s).1 =
        (s.filter Char.isAlpha).map Char.toLower ∧
      ((FastNormalizer.normalize (FastNormalizer.after calls) s).1 = [] ↔
        ∀ c ∈ s, c.isAlpha = false) ∧
      (FastNormalizer.normalize FastNormalizer.initial "Don't!".toList).1 = "dont".toList := by
  refine ⟨FastNormalizer.normalize_after calls s, ?_,
    (FastNormalizer.normalize_after [] "Don't!".toList).trans (by decide)⟩
  rw [FastNormalizer.normalize_after]
  simp [List.filter_eq_nil_iff]

/-- C10, as stated, fails: "cap" and "car" are two substitutions away from "cot", so with
`max_dist = 1` neither is suggested. -/
theorem C10_counterexample :
    "cap".toList ∉ getSuggestions (build scenarioWords) "cot".toList 1 ∧
      "car".toList ∉ getSuggestions (build scenarioWords) "cot".toList 1 ∧
      levDist "cap".toList "cot".toList = 2 ∧ levDist "car".toList "cot".toList = 2 := by
  refine ⟨by decide, by decide, by simp [levDist], by simp [levDist]⟩

/-- C10 (amended): for the vocabulary "cat", "cap", "car", "dog", `isCorrect("cat")` is true
and, whatever the iteration order of the child mappings, `getSuggestions("cot", 1)` contains
"cat" and contains none of "cap", "car" and "dog". -/
theorem C10_scenario (t : TrieNode) (hsame : SameUpToOrder (build scenarioWords) t) :
    DictionaryManager.isCorrect (DictionaryManager.insertWords scenarioWords) "cat".toList
        = true ∧
      "cat".toList ∈ getSuggestions t "cot".toList 1 ∧
      "cap".toList ∉ getSuggestions t "cot".toList 1 ∧
      "car".toList ∉ getSuggestions t "cot".toList 1 ∧
      "dog".toList ∉ getSuggestions t "cot".toList 1 := by
  have hwf : WF t := sameUpToOrder_wf _ _ (wf_build _) hsame
  refine ⟨by decide, ?_, ?_, ?_, ?_⟩
  · have hne : "cat".toList ≠ [] := by decide
    refine mem_getSuggestions_of_few hwf
      ((sameUpToOrder_hasPath _ _ _ hsame).1
        ((hasPath_build_iff scenarioWords hne).2 (by decide))) hne (by decide) (by decide)
      ["cat".toList] ?_ (by decide)
    intro x hx
    obtain ⟨s, hxs, hp, hxne, hxd⟩ := collect_sound t "cot".toList [] 1 x hx
    simp only [List.nil_append] at hxs
    subst hxs
    have hmem := (hasPath_build_iff scenarioWords hxne).1
      ((sameUpToOrder_hasPath _ _ _ hsame).2 hp)
    simp only [scenarioWords, List.mem_cons, List.mem_singleton, List.not_mem_nil,
      or_false] at hmem
    rcases hmem with h | h | h | h
    · rw [h]; exact List.mem_singleton_self _
    · rw [h] at hxd; exact absurd hxd (by decide)
    · rw [h] at hxd; exact absurd hxd (by decide)
    · rw [h] at hxd; exact absurd hxd (by decide)
  · intro h
    exact absurd (mem_getSuggestions_sound h).2.2 (by decide)
  · intro h
    exact absurd (mem_getSuggestions_sound h).2.2 (by decide)
  · intro h
    exact absurd (mem_getSuggestions_sound h).2.2 (by decide)

theorem C10_scenario_witness :
    "cat".toList ∈ getSuggestions (build scenarioWords) "cot".toList 1 ∧
      "dog".toList ∉ getSuggestions (build scenarioWords) "cot".toList 1 :=
  ⟨(C10_scenario _ (sameUpToOrder_refl _)).2.1, (C10_scenario _ (sameUpToOrder_refl _)).2.2.2.2⟩

/-- C11: for a trie built by inserting `ws` (its child mappings iterated in any order), every
string returned by `getSuggestions` is non-empty, is one of the inserted words, and is found
by `search`. -/
theorem C11_suggestions_are_words (ws : List (List Char)) (t : TrieNode)
    (target : List Char) (max_dist : Int) (hsame : SameUpToOrder (build ws) t) :
    ∀ w ∈ getSuggestions t target max_dist, w ≠ [] ∧ w ∈ ws ∧ search t w = true := by
  intro w hw
  obtain ⟨hp, hne, _⟩ := mem_getSuggestions_sound hw
  have hwf : WF t := sameUpToOrder_wf _ _ (wf_build ws) hsame
  refine ⟨hne, (hasPath_build_iff ws hne).1 ((sameUpToOrder_hasPath _ _ _ hsame).2 hp), ?_⟩
  rw [search_eq_searchFrom t hne]
  exact hasPath_searchFrom w t hwf hp

theorem C11_suggestions_are_words_witness :
    "cap".toList ∈ getSuggestions (build scenarioWords) "cot".toList 2 ∧
      "cap".toList ≠ [] ∧ "cap".toList ∈ scenarioWords ∧
      search (build scenarioWords) "cap".toList = true :=
  ⟨by decide,
    C11_suggestions_are_words scenarioWords (build scenarioWords) "cot".toList 2
      (sameUpToOrder_refl _) "cap".toList (by decide)⟩

/-- C13: `getSuggestions` returns the first ten entries of the list that the same traversal
builds when the early exit on ten suggestions is removed. -/
theorem C13_early_exit_is_truncation (t : TrieNode) (target : List Char) (max_dist : Int) :
    getSuggestions t target max_dist = (dfsUncapped t target [] max_dist []).take 10 := by
  rw [getSuggestions_eq_collect, dfsUncapped_eq_collect, List.nil_append]

/-- C14, as stated, fails for a trie holding a word too long for `int`: with the single word
of `2^32 + 1` letters "a", the target "a" and `max_dist = 1`, the traversal with the pruning
test returns nothing, while the traversal without it reaches the word, whose length narrows
to `1`, gets distance `0` from `editDistance` and returns it. -/
theorem C14_counterexample :
    getSuggestions (build [wrapString]) "a".toList 1 = [] ∧
      getSuggestionsUnpruned (build [wrapString]) "a".toList 1 = [wrapString] := by
  have hne : wrapString ≠ [] := by
    unfold wrapString
    exact List.cons_ne_nil _ _
  constructor
  · rw [getSuggestions_eq_collect]
    have hnil : collect (build [wrapString]) "a".toList [] 1 = [] := by
      rw [List.eq_nil_iff_forall_not_mem]
      intro x hx
      obtain ⟨s, hxs, hp, hxne, _⟩ := collect_sound _ _ [] 1 x hx
      simp only [List.nil_append] at hxs
      subst hxs
      have hmem := (hasPath_build_iff [wrapString] hxne).1 hp
      rw [List.mem_singleton] at hmem
      rcases collect_length_le _ _ [] 1 x hx with h | h
      · exact hxne h
      · rw [hmem, wrapString_length] at h
        unfold pruneBound at h
        revert h
        decide
    rw [hnil]
    rfl
  · have hemp : ¬ (wrapString.isEmpty = true) := by
      unfold wrapString
      exact Bool.false_ne_true
    have hb : build [wrapString] = insertFrom wrapString (.mk false []) := by
      show OptimizedTrie.insert OptimizedTrie.empty wrapString = _
      unfold OptimizedTrie.insert
      rw [if_neg hemp]
      rfl
    have e : editDistance wrapString "a".toList = 0 := editDistance_wrapString_left
    have hd : dfsUnpruned (build [wrapString]) "a".toList [] 1 [] = [wrapString] := by
      rw [hb, dfsUnpruned_chain, List.nil_append]
      exact if_pos ⟨hne, by rw [e]; decide⟩
    unfold getSuggestionsUnpruned
    rw [hd]
    exact if_neg (by decide)

/-- C14 (amended): for `max_dist ≤ 2`, a target shorter than `2^31 - 1` and a trie all of
whose paths are shorter than `2^31 - 1`, the traversal with the pruning test returns the same
list as the traversal without it, from every path and list of suggestions, and so does
`getSuggestions`. -/
theorem C14_pruning_loses_nothing (t : TrieNode) (target : List Char) (max_dist : Int)
    (hmd : max_dist ≤ 2) (ht : target.length < 2147483647)
    (hh : t.height < 2147483647) :
    (∀ current suggestions, current.length + t.height < 2147483647 →
        dfs t target current max_dist suggestions =
          dfsUnpruned t target current max_dist suggestions) ∧
      getSuggestions t target max_dist = getSuggestionsUnpruned t target max_dist := by
  refine ⟨fun current suggestions hc =>
    dfs_eq_dfsUnpruned t target current max_dist suggestions hmd ht hc, ?_⟩
  unfold getSuggestions getSuggestionsUnpruned
  rw [dfs_eq_dfsUnpruned t target [] max_dist [] hmd ht (by simpa using hh)]

theorem C14_pruning_loses_nothing_witness :
    getSuggestions (build chainWords) "abcd".toList 2 =
      getSuggestionsUnpruned (build chainWords) "abcd".toList 2 :=
  (C14_pruning_loses_nothing (build chainWords) "abcd".toList 2 (by decide) (by decide)
    (by decide)).2

/-- C16: for a trie built by insertions (its child mappings iterated in any order), the list
returned by `getSuggestions` holds no string twice, also when words were inserted several
times. -/
theorem C16_no_duplicates (ws : List (List Char)) (t : TrieNode) (target : List Char)
    (max_dist : Int) (hsame : SameUpToOrder (build ws) t) :
    (getSuggestions t target max_dist).Nodup :=
  getSuggestions_nodup (sameUpToOrder_wf _ _ (wf_build ws) hsame) target max_dist

theorem C16_no_duplicates_witness :
    (getSuggestions (build ["cat".toList, "cat".toList, "cap".toList, "cat".toList])
      "cat".toList 2).Nodup :=
  C16_no_duplicates ["cat".toList, "cat".toList, "cap".toList, "cat".toList] _ _ _
    (sameUpToOrder_refl _)

/-- C17, as stated, fails for strings too long for `int`: with `a` empty and `b` of
`2^32 - 2` letters, the length of `b` narrows to `-2`; `editDistance(b, a)` returns
`dp[0][0] = 0`, while `editDistance(a, b)` asks for rows of `-1` cells and faults. -/
theorem C17_counterexample :
    editDistanceChecked [] (List.replicate 4294967294 'a') = none ∧
      editDistanceChecked (List.replicate 4294967294 'a') [] = some 0 := by
  unfold editDistanceChecked
  rw [List.length_replicate]
  decide

/-- C17 (amended): for strings shorter than `2^31 - 1`, `editDistance` is symmetric in its two
arguments, also with every step checked. -/
theorem C17_editDistance_symmetric (a b : List Char) (ha : a.length < 2147483647)
    (hb : b.length < 2147483647) :
    editDistance a b = editDistance b a ∧
      editDistanceChecked a b = editDistanceChecked b a := by
  refine ⟨editDistance_comm a b ha hb, ?_⟩
  rw [editDistanceChecked_eq a b ha hb, editDistanceChecked_eq b a hb ha,
    editDistance_comm a b ha hb]

theorem C17_editDistance_symmetric_witness :
    editDistance "cat".toList "carts".toList = editDistance "carts".toList "cat".toList ∧
      editDistanceChecked "cat".toList "carts".toList =
        editDistanceChecked "carts".toList "cat".toList :=
  C17_editDistance_symmetric "cat".toList "carts".toList (by decide) (by decide)

/-- C12, as stated, fails for strings too long for `int`: for "a" and a string of `2^32 - 1`
letters the second length narrows to `-1`, the rows get `0` cells and the write
`dp[1][0] = 1` is out of bounds. -/
theorem C12_counterexample :
    editDistanceChecked "a".toList (List.replicate 4294967295 'a') = none := by
  unfold editDistanceChecked
  rw [List.length_replicate]
  decide

/-- C12 (amended): for strings shorter than `2^31 - 1` every step of `editDistance` is
without fault (no index out of bounds, no overflow) and yields its value; and for a target
shorter than `2^31 - 1` and a trie all of whose paths are shorter than `2^31 - 1`,
`getSuggestions` never faults in `editDistance`. -/
theorem C12_no_fault (s1 s2 : List Char) (t : TrieNode) (target : List Char)
    (max_dist : Int) (h1 : s1.length < 2147483647) (h2 : s2.length < 2147483647)
    (ht : target.length < 2147483647) (hh : t.height < 2147483647) :
    editDistanceChecked s1 s2 = some (editDistance s1 s2) ∧
      getSuggestionsChecked t target max_dist = some (getSuggestions t target max_dist) :=
  ⟨editDistanceChecked_eq s1 s2 h1 h2, getSuggestionsChecked_eq t target max_dist ht hh⟩

theorem C12_no_fault_witness :
    editDistanceChecked [] "ab".toList = some (editDistance [] "ab".toList) ∧
      getSuggestionsChecked (build scenarioWords) [] 2 =
        some (getSuggestions (build scenarioWords) [] 2) :=
  C12_no_fault [] "ab".toList (build scenarioWords) [] 2 (by decide) (by decide) (by decide)
    (by decide)

/-- C15: after the loading loop over any tokens, `isCorrect` and `search` agree on every
string, and every stored word is non-empty and made of the letters a to z only. -/
theorem C15_indexes_agree (calls tokens : List (List Char)) (w : List Char) :
    DictionaryManager.isCorrect
        (DictionaryManager.loadDictionary (FastNormalizer.after calls) tokens).1 w =
      search (DictionaryManager.loadDictionary (FastNormalizer.after calls) tokens).1.dictionary
        w ∧
    (DictionaryManager.isCorrect
        (DictionaryManager.loadDictionary (FastNormalizer.after calls) tokens).1 w = true →
      w ≠ [] ∧ ∀ c ∈ w, c.isLower = true) := by
  rw [DictionaryManager.loadDictionary_fst, DictionaryManager.dictionary_insertWords,
    search_build]
  have hiff := DictionaryManager.isCorrect_insertWords (storedWords tokens) w
  constructor
  · by_cases hmem : w ∈ storedWords tokens
    · have hne := DictionaryManager.storedWords_ne_nil hmem
      rw [hiff.2 hmem]
      cases w with
      | nil => exact absurd rfl hne
      | cons c w => simp [hmem]
    · have : DictionaryManager.isCorrect (DictionaryManager.insertWords (storedWords tokens)) w
          = false := by
        cases h : DictionaryManager.isCorrect
          (DictionaryManager.insertWords (storedWords tokens)) w
        · rfl
        · exact absurd (hiff.1 h) hmem
      rw [this]
      simp [hmem]
  · intro h
    have hmem := hiff.1 h
    exact ⟨DictionaryManager.storedWords_ne_nil hmem, DictionaryManager.storedWords_lower hmem⟩

/-- C18: `parseText` terminates on every text, and the entries it records satisfy: each span
has `start_pos < end_pos ≤ text.length`, its word is `text[start_pos, end_pos)` and consists
of letters; consecutive spans satisfy `end_pos < start_pos` of the next; every character
outside all spans is no letter; and `is_correct` is true exactly when the normalised word is
in the exact index of the dictionary. -/
theorem C18_word_spans (dict : DictionaryManager) (calls : List (List Char))
    (text : List Char) :
    ∃ ws norm, TextProcessor.parseText dict (FastNormalizer.after calls) text = some (ws, norm) ∧
      (∀ w ∈ ws, w.start_pos < w.end_pos ∧ w.end_pos ≤ text.length ∧
        w.word = (text.drop w.start_pos).take (w.end_pos - w.start_pos) ∧
        (∀ c ∈ w.word, c.isAlpha = true) ∧
        ∀ other : List (List Char), (w.is_correct = true ↔
          (FastNormalizer.normalize (FastNormalizer.after other) w.word).1 ∈ dict.word_set)) ∧
      List.Chain' (fun a b : WordInfo => a.end_pos < b.start_pos) ws ∧
      (∀ k c, text[k]? = some c → (∀ w ∈ ws, ¬ (w.start_pos ≤ k ∧ k < w.end_pos)) →
        c.isAlpha = false) := by
  obtain ⟨ws, norm, hparse, hspans⟩ := TextProcessor.parseText_spec dict calls text
  refine ⟨ws, norm, hparse, ?_, TextProcessor.spans_chain dict text ws 0 hspans, ?_⟩
  · intro w hw
    obtain ⟨h1, h2, h3, h4, h5⟩ := TextProcessor.spans_mem dict text ws 0 hspans w hw
    refine ⟨h1, h2, h3, h4, ?_⟩
    intro other
    rw [FastNormalizer.normalize_after, h5, DictionaryManager.isCorrect_iff]
  · intro k c hc hout
    exact TextProcessor.spans_outside dict text ws 0 hspans k c (Nat.zero_le _) hc hout

/-- C19, as stated, fails when a replacement is too long for `int`: for the text "a b",
whose recorded spans are "a" at 0..1 and "b" at 2..3, with "a" mapped to `2^31 + 1`
characters and "b" to "x", `offset` narrows to `-2^31` after the first replacement, the
position of "b" wraps to `2^64 - 2^31 + 2` and `replace` throws. -/
theorem C19_counterexample :
    (TextProcessor.parseText DictionaryManager.initial (FastNormalizer.after [])
        "a b".toList).map Prod.fst =
      some [⟨"a".toList, 0, 1, false⟩, ⟨"b".toList, 2, 3, false⟩] ∧
    TextProcessor.saveWithReplacements "a b".toList
      [⟨"a".toList, 0, 1, false⟩, ⟨"b".toList, 2, 3, false⟩]
      [("a".toList, List.replicate 2147483649 'x'), ("b".toList, "x".toList)] = none :=
  ⟨by set_option maxRecDepth 100000 in decide,
    TextProcessor.saveWithReplacements_long (List.replicate 2147483649 'x')
      (List.length_replicate 2147483649 'x')⟩

/-- C19 (amended): for a text shorter than `2^31`, the spans recorded by `parseText` and
every replacement map for which the rewritten text is shorter than `2^31`,
`saveWithReplacements` builds the original text with each span whose word is a key of the
map replaced by the mapped string and every other character kept in place; with the empty
map it builds the original text. -/
theorem C19_replacement_rewriting (dict : DictionaryManager) (calls : List (List Char))
    (text : List Char) (replacements : List (List Char × List Char))
    (htext : text.length < 2147483648) :
    ∃ ws norm, TextProcessor.parseText dict (FastNormalizer.after calls) text = some (ws, norm) ∧
      ((TextProcessor.rewritten text replacements ws 0).length < 2147483648 →
        TextProcessor.saveWithReplacements text ws replacements =
          some (TextProcessor.rewritten text replacements ws 0)) ∧
      TextProcessor.saveWithReplacements text ws [] = some text ∧
      TextProcessor.rewritten text [] ws 0 = text := by
  obtain ⟨ws, norm, hparse, hspans⟩ := TextProcessor.parseText_spec dict calls text
  refine ⟨ws, norm, hparse,
    fun hres => TextProcessor.saveWithReplacements_spans dict text replacements ws hspans
      htext hres,
    TextProcessor.saveWithReplacements_empty text ws, ?_⟩
  rw [TextProcessor.rewritten_nil dict text ws 0 hspans, List.drop_zero]

/-- C19 at the text "a b" with "a" mapped to "xy": the spans are "a" at 0..1 and "b" at
2..3, and the string written out is "xy b". -/
theorem C19_replacement_rewriting_witness :
    ("a b".toList.length < 2147483648 ∧
      (TextProcessor.rewritten "a b".toList [("a".toList, "xy".toList)]
        [⟨"a".toList, 0, 1, false⟩, ⟨"b".toList, 2, 3, false⟩] 0).length < 2147483648) ∧
    (TextProcessor.parseText DictionaryManager.initial (FastNormalizer.after [])
        "a b".toList).map Prod.fst =
      some [⟨"a".toList, 0, 1, false⟩, ⟨"b".toList, 2, 3, false⟩] ∧
    TextProcessor.saveWithReplacements "a b".toList
      [⟨"a".toList, 0, 1, false⟩, ⟨"b".toList, 2, 3, false⟩]
      [("a".toList, "xy".toList)] = some "xy b".toList := by
  have hp : (TextProcessor.parseText DictionaryManager.initial (FastNormalizer.after [])
        "a b".toList).map Prod.fst =
      some [⟨"a".toList, 0, 1, false⟩, ⟨"b".toList, 2, 3, false⟩] := by
    set_option maxRecDepth 100000 in decide
  obtain ⟨ws, norm, hparse, h, _, _⟩ :=
    C19_replacement_rewriting DictionaryManager.initial [] "a b".toList
      [("a".toList, "xy".toList)] (by decide)
  rw [hparse] at hp
  obtain rfl : ws = [⟨"a".toList, 0, 1, false⟩, ⟨"b".toList, 2, 3, false⟩] :=
    Option.some.inj hp
  refine ⟨⟨by decide, by decide⟩, ?_, (h (by decide)).trans (by decide)⟩
  rw [hparse]
  rfl
